import Mathlib

/-!
Verification development for the SWE-bench Python log-parser module
(src/swebench/harness/log_parsers/python.py).

Strings are embedded as lists of characters (`Str`).  Python string
operations used by the source (split, strip, replace, find, count, in,
startswith, endswith) are modelled by executable functions below, and the
regular expressions of the source are modelled either by a small
backtracking engine (faithful to the leftmost / greedy / lazy semantics of
CPython re) or, for the patterns that require symbolic reasoning, by direct
scanners whose behaviour was checked against CPython on the inputs in the
theorems.  Python dicts are association lists with in-place overwrite, the
insertion-order semantics of CPython 3.7+.  Functions that can raise
(IndexError on out-of-range indexing) return Option.
-/

set_option maxRecDepth 20000

abbrev Str := List Char

/-- Whitespace recognised by Python str.split() / str.strip() (ASCII range). -/
def pyIsSpace (c : Char) : Bool :=
  c = ' ' || c = '\t' || c = '\n' || c = '\r' || c = Char.ofNat 11 || c = Char.ofNat 12

/-- Word characters of the re module metacharacter for words (ASCII range). -/
def isWordChar (c : Char) : Bool :=
  c.isAlpha || c.isDigit || c = '_'

/-- Hexadecimal digits, the class [0-9A-Fa-f] of the memory-address pattern. -/
def hexDigit (c : Char) : Bool :=
  c.isDigit || ('A' ≤ c && c ≤ 'F') || ('a' ≤ c && c ≤ 'f')

/-- Does pat occur at the very beginning of s (Python startswith)? -/
def begMatch : Str → Str → Bool
  | [], _ => true
  | _ :: _, [] => false
  | p :: ps, c :: cs => p = c && begMatch ps cs

/-- Does pat occur at the very end of s (Python endswith)? -/
def endMatch (pat s : Str) : Bool :=
  begMatch pat.reverse s.reverse

/-- Does pat occur at offset i of s? -/
def sliceEq (s : Str) (i : Nat) (pat : Str) : Bool :=
  begMatch pat (s.drop i)

/-- Character of s at offset i, if any. -/
def charAt (s : Str) (i : Nat) : Option Char :=
  (s.drop i).head?

/-- The slice s[a:b]. -/
def strSlice (s : Str) (a b : Nat) : Str :=
  (s.drop a).take (b - a)

/-- nth element of a list. -/
def nth {α : Type} : List α → Nat → Option α
  | [], _ => none
  | a :: _, 0 => some a
  | _ :: as, n + 1 => nth as n

/-- Smallest index in [n, n + fuel) satisfying p, scanning upward. -/
def firstFromF (p : Nat → Bool) : Nat → Nat → Option Nat
  | _, 0 => none
  | n, f + 1 => if p n then some n else firstFromF p (n + 1) f

/-- Smallest index in [n, stop) satisfying p. -/
def firstFrom (p : Nat → Bool) (n stop : Nat) : Option Nat :=
  firstFromF p n (stop - n)

/-- Python s.find(pat): smallest offset where pat occurs in s. -/
def pyFindSub (s pat : Str) : Option Nat :=
  firstFrom (fun i => sliceEq s i pat) 0 (s.length + 1)

/-- Python pat in s. -/
def pyContainsSub (s pat : Str) : Bool :=
  (pyFindSub s pat).isSome

/-- Helper for pyCountSub: count occurrences from offset q on, non-overlapping. -/
def pyCountSubF : Nat → Str → Str → Nat → Nat
  | 0, _, _, _ => 0
  | f + 1, s, pat, q =>
    match firstFrom (fun i => sliceEq s i pat) q (s.length + 1) with
    | none => 0
    | some i => 1 + pyCountSubF f s pat (i + pat.length)

/-- Python s.count(pat): non-overlapping occurrences, scanned from the left. -/
def pyCountSub (s pat : Str) : Nat :=
  pyCountSubF (s.length + 1) s pat 0

/-- Python s.split(chr(10)): split at every newline, keeping empty parts. -/
def splitNlAux : Str → Str → List Str
  | [], acc => [acc.reverse]
  | c :: rest, acc =>
    if c = '\n' then acc.reverse :: splitNlAux rest [] else splitNlAux rest (c :: acc)

/-- Python log.split(chr(10)). -/
def splitNl (s : Str) : List Str :=
  splitNlAux s []

/-- Helper for pySplitWS, carrying the current token reversed. -/
def splitWSAux : Str → Str → List Str
  | [], acc => if acc.isEmpty then [] else [acc.reverse]
  | c :: rest, acc =>
    if pyIsSpace c then
      if acc.isEmpty then splitWSAux rest [] else acc.reverse :: splitWSAux rest []
    else splitWSAux rest (c :: acc)

/-- Python s.split() with no argument: split on whitespace runs, no empty tokens. -/
def pySplitWS (s : Str) : List Str :=
  splitWSAux s []

/-- Helper for pyReplace; fuel bounds the number of scanned positions. -/
def pyReplaceF : Nat → Str → Str → Str → Str
  | 0, s, _, _ => s
  | _ + 1, [], _, _ => []
  | f + 1, c :: rest, old, new =>
    if begMatch old (c :: rest) then new ++ pyReplaceF f ((c :: rest).drop old.length) old new
    else c :: pyReplaceF f rest old new

/-- Python s.replace(old, new): leftmost, non-overlapping (old nonempty in all uses). -/
def pyReplace (s old new : Str) : Str :=
  pyReplaceF s.length s old new

/-- Python s.strip(). -/
def pyStrip (s : Str) : Str :=
  ((s.dropWhile pyIsSpace).reverse.dropWhile pyIsSpace).reverse

/-- Python s.lstrip(). -/
def pyLstrip (s : Str) : Str :=
  s.dropWhile pyIsSpace

/-- Python s.split(pat)[0] (also correct when pat does not occur). -/
def beforeFirst (s pat : Str) : Str :=
  match pyFindSub s pat with
  | some i => s.take i
  | none => s

/-- Python s.split(pat, 1)[-1] (the whole of s when pat does not occur). -/
def afterFirst (s pat : Str) : Str :=
  match pyFindSub s pat with
  | some i => s.drop (i + pat.length)
  | none => s

/-- Python s.rsplit(suf, 1)[0] under the guard s.endswith(suf). -/
def dropSuffixStr (s suf : Str) : Str :=
  s.take (s.length - suf.length)

/-- Association-list model of a Python dict: insertion order, overwrite in place. -/
abbrev Dict := List (Str × Str)

/-- Python d[k] = v. -/
def dinsert (m : Dict) (k v : Str) : Dict :=
  match m with
  | [] => [(k, v)]
  | (k0, v0) :: rest => if k0 = k then (k0, v) :: rest else (k0, v0) :: dinsert rest k v

/-- Python d.get(k). -/
def dlookup (m : Dict) (k : Str) : Option Str :=
  match m with
  | [] => none
  | (k0, v0) :: rest => if k0 = k then some v0 else dlookup rest k

/-- Python k in d. -/
def dHasKey (m : Dict) (k : Str) : Bool :=
  (dlookup m k).isSome

/-- Modelled from the spec: the source imports TestStatus from
swebench.harness.constants, a module of this repository that is not under
src/.  Spec section 3 fixes the closed canonical status set (Passed, Failed,
Error, Skipped, ExpectedFailure alias xfail), section 8 pins the canonical
spellings PASSED and FAILED, and the remaining members follow the same
all-uppercase canonical spelling convention (ERROR, SKIPPED, XFAIL). -/
inductive TestStatus where
  | PASSED | FAILED | ERROR | SKIPPED | XFAIL
deriving DecidableEq

/-- Modelled from the spec: the canonical textual form of each status. -/
def TestStatus.value : TestStatus → Str
  | .PASSED => "PASSED".toList
  | .FAILED => "FAILED".toList
  | .ERROR => "ERROR".toList
  | .SKIPPED => "SKIPPED".toList
  | .XFAIL => "XFAIL".toList

/-- Modelled from the spec: iteration order over the TestStatus enum.  The
spec lists the members in the order Passed, Failed, Error, Skipped,
ExpectedFailure; no behaviour of the source depends on this order since no
canonical spelling is a prefix of another. -/
def statusList : List TestStatus :=
  [.PASSED, .FAILED, .ERROR, .SKIPPED, .XFAIL]

/-- The canonical status spellings, i.e. x.value for x in TestStatus. -/
def statusValues : List Str :=
  statusList.map TestStatus.value

/-- any(line.startswith(x.value) for x in TestStatus). -/
def startsWithAnyStatus (line : Str) : Bool :=
  statusValues.any (fun v => begMatch v line)

/-- any(line.endswith(x.value) for x in TestStatus). -/
def endsWithAnyStatus (line : Str) : Bool :=
  statusValues.any (fun v => endMatch v line)

/-- option_pattern.search of the pattern (lazy dot-star group, open bracket,
greedy dot-star group, close bracket) on a whitespace-free token: a match
exists iff an open bracket occurs and a close bracket occurs after the first
open bracket; the first group is everything before the first open bracket and
the second group everything up to the last close bracket (checked against
CPython re.search for this pattern). -/
def firstCharIdx (s : Str) (c : Char) : Option Nat :=
  firstFrom (fun i => charAt s i = some c) 0 s.length

def lastCharIdx (s : Str) (c : Char) : Option Nat :=
  match firstCharIdx s.reverse c with
  | some j => some (s.length - 1 - j)
  | none => none

def option_pattern_search (s : Str) : Option (Str × Str) :=
  match firstCharIdx s '[', lastCharIdx s ']' with
  | some i, some j => if i < j then some (s.take i, strSlice s (i + 1) j) else none
  | _, _ => none

/-- Python option.split(sep-character). -/
def splitSepAux (sep : Char) : Str → Str → List Str
  | [], acc => [acc.reverse]
  | c :: rest, acc =>
    if c = sep then acc.reverse :: splitSepAux sep rest []
    else splitSepAux sep rest (c :: acc)

def splitSep (sep : Char) (s : Str) : List Str :=
  splitSepAux sep s []

/-- Loop body shared verbatim by parse_log_pytest and (after the MouseButton
replacements) parse_log_matplotlib in the source. -/
def pytestLine (m : Dict) (line : Str) : Dict :=
  if startsWithAnyStatus line then
    let line1 :=
      if begMatch TestStatus.FAILED.value line
      then pyReplace line " - ".toList " ".toList else line
    let tc := pySplitWS line1
    if tc.length ≤ 1 then m
    else dinsert m ((nth tc 1).getD []) ((nth tc 0).getD [])
  else m

/-- Parser for test logs generated with the PyTest framework. -/
def parse_log_pytest (log : Str) : Dict :=
  (splitNl log).foldl pytestLine []

/-- Loop body of parse_log_pytest_options. -/
def pytestOptionsLine (m : Dict) (line : Str) : Dict :=
  if startsWithAnyStatus line then
    let line1 :=
      if begMatch TestStatus.FAILED.value line
      then pyReplace line " - ".toList " ".toList else line
    let tc := pySplitWS line1
    if tc.length ≤ 1 then m
    else
      let t1 := (nth tc 1).getD []
      let testName :=
        match option_pattern_search t1 with
        | some (main, opt) =>
          let opt1 :=
            if begMatch "/".toList opt && !begMatch "//".toList opt && !opt.contains '*'
            then "/".toList ++ (splitSep '/' opt).getLastD []
            else opt
          main ++ "[".toList ++ opt1 ++ "]".toList
        | none => t1
      dinsert m testName ((nth tc 0).getD [])
  else m

/-- Parser for test logs generated with the PyTest framework with options. -/
def parse_log_pytest_options (log : Str) : Dict :=
  (splitNl log).foldl pytestOptionsLine []

/-- Loop body of parse_log_matplotlib: the MouseButton replacements followed
by the same text as the parse_log_pytest loop body. -/
def matplotlibLine (m : Dict) (line : Str) : Dict :=
  pytestLine m
    (pyReplace (pyReplace line "MouseButton.LEFT".toList "1".toList)
      "MouseButton.RIGHT".toList "3".toList)

/-- Parser for matplotlib test logs (PyTest framework with replacements). -/
def parse_log_matplotlib (log : Str) : Dict :=
  (splitNl log).foldl matplotlibLine []

/-- re.sub of the residual color-code pattern (open bracket, one or more
digits, m) on one line: leftmost, non-overlapping removal. -/
def subColorCodesF : Nat → Str → Str
  | 0, s => s
  | _ + 1, [] => []
  | f + 1, c :: rest =>
    if c = '[' then
      let ds := rest.takeWhile Char.isDigit
      if ds.length ≥ 1 && charAt rest ds.length = some 'm'
      then subColorCodesF f (rest.drop (ds.length + 1))
      else c :: subColorCodesF f rest
    else c :: subColorCodesF f rest

def subColorCodes (s : Str) : Str := subColorCodesF s.length s

/-- str.translate with a table deleting chr(1)..chr(31). -/
def removeCtrl (s : Str) : Str :=
  s.filter (fun c => !(1 ≤ c.toNat && c.toNat ≤ 31))

/-- Per-line cleaning of parse_log_pytest_v2. -/
def v2Clean (line : Str) : Str :=
  removeCtrl (subColorCodes line)

/-- Loop body of parse_log_pytest_v2. -/
def v2Line (m : Dict) (rawLine : Str) : Dict :=
  let line := v2Clean rawLine
  if startsWithAnyStatus line then
    let line1 :=
      if begMatch TestStatus.FAILED.value line
      then pyReplace line " - ".toList " ".toList else line
    let tc := pySplitWS line1
    if tc.length ≥ 2 then dinsert m ((nth tc 1).getD []) ((nth tc 0).getD []) else m
  else if endsWithAnyStatus line then
    let tc := pySplitWS line
    if tc.length ≥ 2 then dinsert m ((nth tc 0).getD []) ((nth tc 1).getD []) else m
  else m

/-- Parser for test logs generated with the PyTest framework, later version. -/
def parse_log_pytest_v2 (log : Str) : Dict :=
  (splitNl log).foldl v2Line []

/-- Loop body of parse_log_seaborn.  The source indexes line.split()[1]
without a length guard in all three branches, so indexing a one-token line
raises IndexError: the model returns none there. -/
def seabornLine (m : Dict) (line : Str) : Option Dict :=
  if begMatch TestStatus.FAILED.value line then
    match nth (pySplitWS line) 1 with
    | some tc => some (dinsert m tc TestStatus.FAILED.value)
    | none => none
  else if pyContainsSub line (" ".toList ++ TestStatus.PASSED.value ++ " ".toList) then
    let parts := pySplitWS line
    match nth parts 1 with
    | some p1 =>
      if p1 = TestStatus.PASSED.value
      then some (dinsert m ((nth parts 0).getD []) TestStatus.PASSED.value)
      else some m
    | none => none
  else if begMatch TestStatus.PASSED.value line then
    match nth (pySplitWS line) 1 with
    | some tc => some (dinsert m tc TestStatus.PASSED.value)
    | none => none
  else some m

/-- Parser for test logs generated with the seaborn testing framework;
none models an uncaught IndexError. -/
def parse_log_seaborn (log : Str) : Option Dict :=
  (splitNl log).foldlM seabornLine []

/-- Line loop of parse_log_sympy (the banner findall part is defined with the
regex engine below). -/
def sympyLine (m : Dict) (rawLine : Str) : Dict :=
  let line := pyStrip rawLine
  if begMatch "test_".toList line then
    let m1 :=
      if endMatch " E".toList line
      then dinsert m ((nth (pySplitWS line) 0).getD []) TestStatus.ERROR.value else m
    let m2 :=
      if endMatch " F".toList line
      then dinsert m1 ((nth (pySplitWS line) 0).getD []) TestStatus.FAILED.value else m1
    if endMatch " ok".toList line
    then dinsert m2 ((nth (pySplitWS line) 0).getD []) TestStatus.PASSED.value else m2
  else m

/-- The escape pattern of normalize_log: ESC, open bracket, one or more
digits, m (the case-insensitive flag also lets M close the sequence). -/
def escMatchLen (s : Str) : Option Nat :=
  match s with
  | e :: '[' :: rest =>
    if e = Char.ofNat 27 then
      let ds := rest.takeWhile Char.isDigit
      if ds.length ≥ 1 && (charAt rest ds.length = some 'm' || charAt rest ds.length = some 'M')
      then some (ds.length + 3) else none
    else none
  | _ => none

def escStripF : Nat → Str → Str
  | 0, s => s
  | _ + 1, [] => []
  | f + 1, c :: rest =>
    match escMatchLen (c :: rest) with
    | some n => escStripF f ((c :: rest).drop n)
    | none => c :: escStripF f rest

/-- re.sub removing every occurrence of the escape pattern, scanning left to
right as the re module does. -/
def escStrip (s : Str) : Str := escStripF s.length s

/-- Boundary metacharacter after a hex digit: satisfied at end of input or
before a non-word character. -/
def boundaryAfter : Str → Bool
  | [] => true
  | c :: _ => !isWordChar c

/-- n hex digits followed by a word boundary. -/
def hexRunOk (t : Str) (n : Nat) : Bool :=
  (t.take n).length = n && (t.take n).all hexDigit && boundaryAfter (t.drop n)

/-- The memory-address pattern: 0x then 8 hex digits and a boundary, or 0x
then 16 hex digits and a boundary, the 8-digit alternative tried first. -/
def memMatchLen (s : Str) : Option Nat :=
  match s with
  | '0' :: 'x' :: t =>
    if hexRunOk t 8 then some 10
    else if hexRunOk t 16 then some 18
    else none
  | _ => none

/-- The fixed replacement written for every matched address. -/
def REPL : Str := "0xXXXXXXXXX".toList

def maskSubF : Nat → Str → Str
  | 0, s => s
  | _ + 1, [] => []
  | f + 1, c :: rest =>
    match memMatchLen (c :: rest) with
    | some n => REPL ++ maskSubF f ((c :: rest).drop n)
    | none => c :: maskSubF f rest

/-- re.sub replacing every memory-address match, scanning left to right. -/
def maskSub (s : Str) : Str := maskSubF s.length s

/-- The short-test-summary banner of normalize_log. -/
def SEP : Str :=
  "=========================== short test summary info ============================".toList

def eqRunAt (s : Str) (i : Nat) : Nat :=
  ((s.drop i).takeWhile (fun c => c = '=')).length

def ddRunAt (s : Str) (i : Nat) : Nat :=
  ((s.drop i).takeWhile (fun c => c.isDigit || c = '.')).length

/-- Occurrence at offset j of the duration tail of the summary pattern:
space, in, space, one or more digits/dots (greedy, then s cannot be given
back since the class excludes s), s, space, five or more equals. -/
def isTermAt (s : Str) (j : Nat) : Bool :=
  sliceEq s j " in ".toList &&
  (let d := ddRunAt s (j + 4)
   1 ≤ d && charAt s (j + 4 + d) = some 's' && charAt s (j + 5 + d) = some ' ' &&
   5 ≤ eqRunAt s (j + 6 + d))

/-- End offset of a terminator starting at j: the final equals run is taken
greedily, nothing follows it in the pattern. -/
def termEnd (s : Str) (j : Nat) : Nat :=
  let d := ddRunAt s (j + 4)
  j + 6 + d + eqRunAt s (j + 6 + d)

/-- Whether the part of the summary pattern after the captured lazy gap can
match at offset p: a greedy equals run of length at least five, then a lazy
dot-all gap up to a terminator occurrence.  Giving back characters from the
greedy equals run cannot help (the terminator starts with a space, the given
back characters are equals), so the search for the terminator soundly starts
at the end of the full run. -/
def tailAt (s : Str) (p : Nat) : Bool :=
  5 ≤ eqRunAt s p && (firstFrom (isTermAt s) (p + eqRunAt s p) s.length).isSome

/-- findall of the summary pattern with DOTALL (banner, lazy captured gap,
five or more equals, lazy gap, duration marker, five or more equals):
leftmost non-overlapping matches scanned position by position; each match
contributes the captured gap between the banner and the equals run that
begins the terminator part.  The lazy captured gap ends at the first offset
from which the rest of the pattern matches. -/
def findBlocksF : Nat → Str → Nat → List Str
  | 0, _, _ => []
  | f + 1, s, q =>
    match firstFrom (fun i => sliceEq s i SEP) q (s.length + 1) with
    | none => []
    | some i =>
      match firstFrom (fun p => tailAt s p) (i + SEP.length) s.length with
      | none => findBlocksF f s (i + 1)
      | some p =>
        match firstFrom (isTermAt s) (p + eqRunAt s p) s.length with
        | none => []
        | some j => strSlice s (i + SEP.length) p :: findBlocksF f s (termEnd s j)

def findBlocks (s : Str) : List Str :=
  findBlocksF (s.length + 2) s 0

/-- The summary-narrowing step of normalize_log: with the banner present
once, the suffix of the log from its first occurrence; with the banner
present more than once, the concatenation of the captured blocks of the
summary pattern, a newline written after each block; otherwise the log
unchanged. -/
def narrowStep (log : Str) : Str :=
  if pyContainsSub log SEP then
    if pyCountSub log SEP = 1 then
      log.drop ((pyFindSub log SEP).getD 0)
    else
      (findBlocks log).foldl (fun acc b => acc ++ b ++ ['\n']) []
  else log

/-- normalize_log: escape stripping, then address masking, then summary
narrowing, in the order of the source. -/
def normalize_log (log : Str) : Str :=
  narrowStep (maskSub (escStrip log))

/-- Python s.rsplit(pat, 1)[0]: everything before the last occurrence of pat,
or all of s when pat does not occur. -/
def lastSubIdx (s pat : Str) : Option Nat :=
  match firstFrom (fun k => sliceEq s (s.length - k) pat) 0 (s.length + 1) with
  | some k => some (s.length - k)
  | none => none

def rsplitBefore (s pat : Str) : Str :=
  match lastSubIdx s pat with
  | some i => s.take i
  | none => s

/-- Abstract syntax of the regular expressions used by the source: character
classes, literals, sequencing, ordered alternation, greedy and lazy
repetition, numbered capture groups and multiline anchors. -/
inductive RE where
  | eps : RE
  | cls (p : Char → Bool) : RE
  | lit (cs : Str) : RE
  | seq (a b : RE) : RE
  | alt (a b : RE) : RE
  | starG (a : RE) : RE
  | starL (a : RE) : RE
  | group (n : Nat) (a : RE) : RE
  | bol : RE
  | eol : RE

/-- One or more repetitions, greedy. -/
def rePlus (a : RE) : RE := .seq a (.starG a)

/-- Ordered alternation of a list of alternatives. -/
def altList : List RE → RE
  | [] => .cls (fun _ => false)
  | [r] => r
  | r :: rs => .alt r (altList rs)

/-- Capture store: group number, start offset, end offset; the most recent
entry for a group wins. -/
abbrev Caps := List (Nat × Nat × Nat)

def setCap (cs : Caps) (n a b : Nat) : Caps := (n, a, b) :: cs

def getCap (cs : Caps) (n : Nat) : Option (Nat × Nat) :=
  match cs with
  | [] => none
  | (k, a, b) :: rest => if k = n then some (a, b) else getCap rest n

/-- Text of group n of a match, the empty string for an unmatched group, as
re.findall reports it. -/
def capStr (s : Str) (caps : Caps) (n : Nat) : Str :=
  match getCap caps n with
  | some ab => strSlice s ab.1 ab.2
  | none => []

/-- All ways the expression can match at offset pos, as a list of (end
offset, captures) in the backtracking priority order of the re module: the
head of the list is the match the engine reports.  Fuel only bounds the
recursion depth; with enough fuel the enumeration is exact. -/
def enum : Nat → RE → Str → Nat → Caps → List (Nat × Caps)
  | _, .eps, _, pos, caps => [(pos, caps)]
  | _, .cls p, s, pos, caps =>
    match charAt s pos with
    | some c => if p c then [(pos + 1, caps)] else []
    | none => []
  | _, .lit cs, s, pos, caps =>
    if sliceEq s pos cs then [(pos + cs.length, caps)] else []
  | _, .bol, s, pos, caps =>
    if pos = 0 || charAt s (pos - 1) = some '\n' then [(pos, caps)] else []
  | _, .eol, s, pos, caps =>
    if pos = s.length || charAt s pos = some '\n' then [(pos, caps)] else []
  | 0, .seq _ _, _, _, _ => []
  | f + 1, .seq a b, s, pos, caps =>
    (enum f a s pos caps).flatMap (fun pc => enum f b s pc.1 pc.2)
  | 0, .alt _ _, _, _, _ => []
  | f + 1, .alt a b, s, pos, caps => enum f a s pos caps ++ enum f b s pos caps
  | 0, .group _ _, _, _, _ => []
  | f + 1, .group n a, s, pos, caps =>
    (enum f a s pos caps).map (fun pc => (pc.1, setCap pc.2 n pos pc.1))
  | 0, .starG _, _, pos, caps => [(pos, caps)]
  | f + 1, .starG a, s, pos, caps =>
    ((enum f a s pos caps).filter (fun pc => pos < pc.1)).flatMap
      (fun pc => enum f (.starG a) s pc.1 pc.2) ++ [(pos, caps)]
  | 0, .starL _, _, pos, caps => [(pos, caps)]
  | f + 1, .starL a, s, pos, caps =>
    (pos, caps) :: ((enum f a s pos caps).filter (fun pc => pos < pc.1)).flatMap
      (fun pc => enum f (.starL a) s pc.1 pc.2)

/-- Size of an expression, used to budget engine fuel. -/
def reSize : RE → Nat
  | .eps => 1
  | .cls _ => 1
  | .lit cs => cs.length + 1
  | .seq a b => reSize a + reSize b + 1
  | .alt a b => reSize a + reSize b + 1
  | .starG a => reSize a + 1
  | .starL a => reSize a + 1
  | .group _ a => reSize a + 1
  | .bol => 1
  | .eol => 1

/-- re.search from offset pos: scan positions left to right, report the
first position with a match and that position's highest-priority match. -/
def reFirstF : Nat → RE → Str → Nat → Option (Nat × Nat × Caps)
  | 0, _, _, _ => none
  | f + 1, re, s, pos =>
    match (enum ((reSize re + 2) * (s.length + 2)) re s pos []).head? with
    | some ec => some (pos, ec.1, ec.2)
    | none => if pos < s.length then reFirstF f re s (pos + 1) else none

/-- re.findall / re.finditer: leftmost non-overlapping matches. -/
def reFindAllF : Nat → RE → Str → Nat → List Caps
  | 0, _, _, _ => []
  | f + 1, re, s, q =>
    match reFirstF (s.length + 1) re s q with
    | none => []
    | some (st, e, caps) =>
      caps :: reFindAllF f re s (if st < e then e else st + 1)

def reFindAll (re : RE) (s : Str) : List Caps :=
  reFindAllF (s.length + 2) re s 0

/-- The pattern of parser_pytest: a group over the alternation of the
canonical spellings, one or more whitespace, a group of one or more
non-newline characters. -/
def pytest_ptr : RE :=
  .seq (.group 1 (altList (statusValues.map RE.lit)))
    (.seq (rePlus (.cls pyIsSpace)) (.group 2 (rePlus (.cls (fun c => c ≠ '\n')))))

/-- SWA generic pass 1: status-then-name regex findall. -/
def parser_pytest (log : Str) : Dict :=
  (reFindAll pytest_ptr log).foldl
    (fun m caps => dinsert m (capStr log caps 2) (capStr log caps 1)) []

/-- The synonym table of parser_unittest, in its insertion order (the order
of the alternation in the compiled pattern). -/
def unittestSynonyms : List (Str × TestStatus) :=
  [("error".toList, .ERROR), ("failed".toList, .FAILED), ("fail".toList, .FAILED),
   ("FAIL".toList, .FAILED), ("passed".toList, .PASSED), ("ok".toList, .PASSED),
   ("skipped".toList, .SKIPPED), ("x".toList, .XFAIL), ("u".toList, .ERROR),
   ("deprecated".toList, .SKIPPED)]

def synAlt : RE := altList (unittestSynonyms.map (fun kv => RE.lit kv.1))

/-- UNITTEST_TO_PYTESTSTATUS[t].value; the matched text is always a key of
the table, since the second group is exactly the alternation of its keys. -/
def lookupSyn (t : Str) : Str :=
  match unittestSynonyms.find? (fun kv => kv.1 = t) with
  | some kv => kv.2.value
  | none => []

/-- First pattern of parser_unittest: a name (either a test word with a
parenthesised argument or a run of non-whitespace), optional whitespace, an
ellipsis, optional whitespace, then a synonym. -/
def ut1 : RE :=
  .seq (.group 1 (.alt
      (.seq (.lit "test".toList)
        (.seq (.starG (.cls isWordChar))
          (.seq (.cls pyIsSpace)
            (.seq (.lit "(".toList)
              (.seq (rePlus (.cls (fun c => c ≠ ')'))) (.lit ")".toList))))))
      (rePlus (.cls (fun c => !pyIsSpace c)))))
    (.seq (.starG (.cls pyIsSpace))
      (.seq (.lit "...".toList)
        (.seq (.starG (.cls pyIsSpace)) (.group 2 synAlt))))

/-- Second pattern of parser_unittest: a run of non-whitespace, a newline,
then a synonym. -/
def ut2 : RE :=
  .seq (.group 1 (rePlus (.cls (fun c => !pyIsSpace c))))
    (.seq (.lit "\n".toList) (.group 2 synAlt))

/-- One findall pass of parser_unittest over the accumulating dict: names
must contain the word test, and a name already present is never overwritten. -/
def utPass (d : Dict) (log : Str) (pat : RE) : Dict :=
  (reFindAll pat log).foldl
    (fun m caps =>
      let name := capStr log caps 1
      if !pyContainsSub name "test".toList then m
      else if dHasKey m name then m
      else dinsert m name (lookupSyn (capStr log caps 2))) d

/-- SWA generic pass 2: name-then-status findall passes. -/
def parser_unittest (log : Str) : Dict :=
  utPass (utPass [] log ut1) log ut2

/-- swa_parser: normalize, run the status-prefix pass, then add the
name-then-status entries whose keys are not already present. -/
def swaParser (log : Str) : Dict :=
  let nl := normalize_log log
  let d1 := parser_pytest nl
  ((parser_unittest nl).filter (fun kv => !dHasKey d1 kv.1)).foldl
    (fun d kv => dinsert d kv.1 kv.2) d1

/-- The banner pattern of parse_log_sympy: a run of underscores, a space, a
greedy non-newline group, a .py: literal, a greedy non-newline group, a
space, a run of underscores (both underscore runs may be empty). -/
def sympy_ptr : RE :=
  .seq (.group 1 (.starG (.cls (fun c => c = '_'))))
    (.seq (.lit " ".toList)
      (.seq (.group 2 (.starG (.cls (fun c => c ≠ '\n'))))
        (.seq (.lit ".py:".toList)
          (.seq (.group 3 (.starG (.cls (fun c => c ≠ '\n'))))
            (.seq (.lit " ".toList)
              (.group 4 (.starG (.cls (fun c => c = '_')))))))))

/-- Parser for test logs generated with the Sympy framework. -/
def parse_log_sympy (log : Str) : Dict :=
  let m0 := (reFindAll sympy_ptr log).foldl
    (fun m caps =>
      dinsert m (capStr log caps 2 ++ ".py:".toList ++ capStr log caps 3)
        TestStatus.FAILED.value) []
  (splitNl log).foldl sympyLine m0

/-- Multiline noise pattern 1 of parse_log_django. -/
def dj1 : RE :=
  .seq .bol
    (.seq (.group 1 (.starL (.cls (fun c => c ≠ '\n'))))
      (.seq (.cls pyIsSpace)
        (.seq (.lit "...".toList)
          (.seq (.cls pyIsSpace)
            (.seq (.lit "Testing against Django installed in ".toList)
              (.seq (.group 2 (.starL (.cls (fun _ => true))))
                (.seq (.lit " silenced).".toList)
                  (.seq (.lit "\nok".toList) .eol))))))))

/-- Multiline noise pattern 2 of parse_log_django. -/
def dj2 : RE :=
  .seq .bol
    (.seq (.group 1 (.starL (.cls (fun c => c ≠ '\n'))))
      (.seq (.cls pyIsSpace)
        (.seq (.lit "...".toList)
          (.seq (.cls pyIsSpace)
            (.seq (.lit "Internal Server Error: /".toList)
              (.seq (.group 2 (.starG (.cls (fun c => c ≠ '\n'))))
                (.seq (.lit "/".toList)
                  (.seq (.lit "\nok".toList) .eol))))))))

/-- Multiline noise pattern 3 of parse_log_django. -/
def dj3 : RE :=
  .seq .bol
    (.seq (.group 1 (.starL (.cls (fun c => c ≠ '\n'))))
      (.seq (.cls pyIsSpace)
        (.seq (.lit "...".toList)
          (.seq (.cls pyIsSpace)
            (.seq (.lit "System check identified no issues (0 silenced)".toList)
              (.seq (.lit "\nok".toList) .eol))))))

/-- The names captured by the three multiline noise patterns of
parse_log_django, in pattern order then match order; each is recorded as
Passed after the line loop. -/
def djangoNoise (log : Str) : List Str :=
  ((reFindAll dj1 log) ++ (reFindAll dj2 log) ++ (reFindAll dj3 log)).map
    (fun caps => capStr log caps 1)

def djangoSuffixes : List Str :=
  [" ... ok".toList, " ... OK".toList, " ...  OK".toList]

def djangoMigrationNoise : Str :=
  "Applying sites.0002_alter_domain_unique...test_no_migrations".toList

/-- The pending-name update of the parse_log_django line loop. -/
def djangoPrev (prev : Option Str) (line : Str) : Option Str :=
  if pyContainsSub line " ... ".toList then some (beforeFirst line " ... ".toList) else prev

/-- The version special case of the parse_log_django line loop. -/
def djangoVersion (m : Dict) (line : Str) : Dict :=
  if pyContainsSub line "--version is equivalent to version".toList
  then dinsert m "--version is equivalent to version".toList TestStatus.PASSED.value
  else m

/-- The pass-suffix loop with break of the parse_log_django line loop: the
first matching suffix wins; on a hit the migration special case may rebind
the line for the branches after it, so the rebound line is returned too. -/
def djangoSuffix (m : Dict) (line : Str) : Dict × Str :=
  match djangoSuffixes.find? (fun suf => endMatch suf line) with
  | some suf =>
    let line2 := if begMatch djangoMigrationNoise (pyStrip line)
                 then pyStrip (afterFirst line "...".toList) else line
    (dinsert m (rsplitBefore line2 suf) TestStatus.PASSED.value, line2)
  | none => (m, line)

/-- The skipped branch of the parse_log_django line loop. -/
def djangoSkipped (m : Dict) (line : Str) : Dict :=
  if pyContainsSub line " ... skipped".toList
  then dinsert m (beforeFirst line " ... skipped".toList) TestStatus.SKIPPED.value
  else m

/-- The FAIL-suffix branch of the parse_log_django line loop. -/
def djangoFailEnd (m : Dict) (line : Str) : Dict :=
  if endMatch " ... FAIL".toList line
  then dinsert m (beforeFirst line " ... FAIL".toList) TestStatus.FAILED.value
  else m

/-- The FAIL-prefix branch: indexes line.split()[1] with no guard, so a
line holding only the FAIL: token raises IndexError (modelled none). -/
def djangoFailColon (m : Dict) (line : Str) : Option Dict :=
  if begMatch "FAIL:".toList line then
    match nth (pySplitWS line) 1 with
    | some t => some (dinsert m (pyStrip t) TestStatus.FAILED.value)
    | none => none
  else some m

/-- The ERROR-suffix branch of the parse_log_django line loop. -/
def djangoErrorEnd (m : Dict) (line : Str) : Dict :=
  if endMatch " ... ERROR".toList line
  then dinsert m (beforeFirst line " ... ERROR".toList) TestStatus.ERROR.value
  else m

/-- The ERROR-prefix branch: indexes line.split()[1] with no guard. -/
def djangoErrorColon (m : Dict) (line : Str) : Option Dict :=
  if begMatch "ERROR:".toList line then
    match nth (pySplitWS line) 1 with
    | some t => some (dinsert m (pyStrip t) TestStatus.ERROR.value)
    | none => none
  else some m

/-- The ok branch of the parse_log_django line loop: a line starting (after
lstrip) with ok finalizes the pending name as Passed. -/
def djangoOk (m : Dict) (prev : Option Str) (line : Str) : Dict :=
  match prev with
  | some pt =>
    if begMatch "ok".toList (pyLstrip line) then dinsert m pt TestStatus.PASSED.value else m
  | none => m

/-- One iteration of the parse_log_django line loop over the state (result
dict, pending in-progress test name), the branches in source order; none
models an uncaught IndexError from line.split()[1] on a line holding only
the FAIL: or ERROR: token. -/
def djangoStep (st : Dict × Option Str) (rawLine : Str) : Option (Dict × Option Str) := do
  let line := pyStrip rawLine
  let m := djangoVersion st.1 line
  let prev := djangoPrev st.2 line
  let ml := djangoSuffix m line
  let m := djangoSkipped ml.1 ml.2
  let m := djangoFailEnd m ml.2
  let m ← djangoFailColon m ml.2
  let m := djangoErrorEnd m ml.2
  let m ← djangoErrorColon m ml.2
  return (djangoOk m prev ml.2, prev)

/-- Parser for test logs generated with the Django tester framework; none
models an uncaught IndexError. -/
def parse_log_django (log : Str) : Option Dict := do
  let st ← (splitNl log).foldlM djangoStep ([], none)
  return (djangoNoise log).foldl (fun d n => dinsert d n TestStatus.PASSED.value) st.1

/-- Identities of the parsing routines that appear in the source (the
aliases of the source resolve to these); swa names the generic fallback
swa_parser, which is not registered. -/
inductive ParserId where
  | pytest | pytest_options | pytest_v2 | django | seaborn | sympy | matplotlib | swa
deriving DecidableEq

abbrev Registry := List (String × ParserId)

/-- MAP_REPO_TO_PARSER_PY with each alias resolved to the routine it is
bound to in the source. -/
def MAP_REPO_TO_PARSER_PY : Registry :=
  [("astropy/astropy", .pytest_v2),
   ("django/django", .django),
   ("marshmallow-code/marshmallow", .pytest),
   ("matplotlib/matplotlib", .matplotlib),
   ("mwaskom/seaborn", .seaborn),
   ("pallets/flask", .pytest),
   ("psf/requests", .pytest_options),
   ("pvlib/pvlib-python", .pytest),
   ("pydata/xarray", .pytest),
   ("pydicom/pydicom", .pytest_options),
   ("pylint-dev/astroid", .pytest),
   ("pylint-dev/pylint", .pytest_options),
   ("pytest-dev/pytest", .pytest),
   ("pyvista/pyvista", .pytest),
   ("scikit-learn/scikit-learn", .pytest_v2),
   ("sqlfluff/sqlfluff", .pytest),
   ("sphinx-doc/sphinx", .pytest_v2),
   ("sympy/sympy", .sympy)]

/-- Python dict lookup MAP_REPO_TO_PARSER_PY[identity]; none models the
KeyError signalled for an identity that is not registered. -/
def registryLookup (r : Registry) (k : String) : Option ParserId :=
  match r with
  | [] => none
  | (k0, p) :: rest => if k0 = k then some p else registryLookup rest k

/-- The keys to which one iteration of the parse_log_django line loop can
write a status other than Passed: the skipped, FAIL-suffix, FAIL:-prefix,
ERROR-suffix and ERROR:-prefix branches, computed on the line as those
branches see it (stripped, and rebound by the pass-suffix branch). -/
def djangoNonPassKeys (rawLine : Str) : List Str :=
  let line2 := (djangoSuffix [] (pyStrip rawLine)).2
  (if pyContainsSub line2 " ... skipped".toList
   then [beforeFirst line2 " ... skipped".toList] else []) ++
  (if endMatch " ... FAIL".toList line2
   then [beforeFirst line2 " ... FAIL".toList] else []) ++
  (if begMatch "FAIL:".toList line2 then
     match nth (pySplitWS line2) 1 with
     | some t => [pyStrip t]
     | none => [] else []) ++
  (if endMatch " ... ERROR".toList line2
   then [beforeFirst line2 " ... ERROR".toList] else []) ++
  (if begMatch "ERROR:".toList line2 then
     match nth (pySplitWS line2) 1 with
     | some t => [pyStrip t]
     | none => [] else [])

/-- All keys one iteration of the parse_log_django line loop can write,
except the pending-name write of the ok branch, whose key is the pending
name set by an earlier line. -/
def djangoLineKeys (rawLine : Str) : List Str :=
  let line := pyStrip rawLine
  (if pyContainsSub line "--version is equivalent to version".toList
   then ["--version is equivalent to version".toList] else []) ++
  (match djangoSuffixes.find? (fun suf => endMatch suf line) with
   | some suf => [rsplitBefore (djangoSuffix [] line).2 suf]
   | none => []) ++
  djangoNonPassKeys rawLine

/-- Whether the line, as the ok branch sees it (stripped, and rebound by
the pass-suffix branch), starts with ok after lstrip. -/
def djangoOkStart (rawLine : Str) : Bool :=
  begMatch "ok".toList (pyLstrip (djangoSuffix [] (pyStrip rawLine)).2)

/-- Joining lines with newlines, the inverse of splitNl on newline-free
lines; used to state the line-by-line replacement equivalence of the
matplotlib parser. -/
def joinNl : List Str → Str
  | [] => []
  | [l] => l
  | l :: rest => l ++ '\n' :: joinNl rest

/-- The per-line MouseButton replacement of parse_log_matplotlib. -/
def mouseButtonReplace (l : Str) : Str :=
  pyReplace (pyReplace l "MouseButton.LEFT".toList "1".toList)
    "MouseButton.RIGHT".toList "3".toList

/-! ### Dictionary lemmas -/

theorem dlookup_dinsert_self (m : Dict) (k v : Str) :
    dlookup (dinsert m k v) k = some v := by
  induction m with
  | nil => simp [dinsert, dlookup]
  | cons kv rest ih =>
    obtain ⟨k0, v0⟩ := kv
    by_cases h : k0 = k <;> simp [dinsert, dlookup, h, ih]

theorem dlookup_dinsert_ne (m : Dict) (k k2 v2 : Str) (h : ¬ k2 = k) :
    dlookup (dinsert m k2 v2) k = dlookup m k := by
  induction m with
  | nil => simp [dinsert, dlookup, h]
  | cons kv rest ih =>
    obtain ⟨k0, v0⟩ := kv
    by_cases h0 : k0 = k2 <;> by_cases h1 : k0 = k <;>
      simp_all [dinsert, dlookup]

/-! ### Registry lemmas and claim C8 -/

theorem registryLookup_of_mem (r : Registry) (k : String) (v : ParserId)
    (hnd : (r.map Prod.fst).Nodup) (hm : (k, v) ∈ r) :
    registryLookup r k = some v := by
  induction r with
  | nil => simp at hm
  | cons kv rest ih =>
    obtain ⟨k0, v0⟩ := kv
    simp only [List.map_cons, List.nodup_cons] at hnd
    rcases List.mem_cons.mp hm with h | h
    · cases h
      simp [registryLookup]
    · have hk : ¬ k0 = k := by
        intro he; subst he
        exact hnd.1 (List.mem_map_of_mem Prod.fst h)
      simp [registryLookup, hk, ih hnd.2 h]

theorem registryLookup_eq_none (r : Registry) (k : String)
    (h : k ∉ r.map Prod.fst) : registryLookup r k = none := by
  induction r with
  | nil => rfl
  | cons kv rest ih =>
    obtain ⟨k0, v0⟩ := kv
    simp only [List.map_cons, List.mem_cons] at h
    push_neg at h
    have hk : ¬ k0 = k := fun he => h.1 he.symm
    simp [registryLookup, hk, ih h.2]

theorem registryLookup_mem (r : Registry) (k : String) (v : ParserId)
    (h : registryLookup r k = some v) : (k, v) ∈ r := by
  induction r with
  | nil => simp [registryLookup] at h
  | cons kv rest ih =>
    obtain ⟨k0, v0⟩ := kv
    by_cases hk : k0 = k
    · subst hk
      simp [registryLookup] at h
      subst h
      exact List.mem_cons_self _ _
    · simp only [registryLookup, if_neg hk] at h
      exact List.mem_cons_of_mem _ (ih h)

/-- Claim C8: Dispatch Registry lookup is exact match on the producer
identity: every identity present in the registry resolves to that
identity's own dialect parser; an identity that is not present yields a
caller-visible lookup failure (none here, the KeyError of the source dict),
never a parser, and in particular never the generic fallback swa parser. -/
theorem C8_registry_exact_lookup :
    (∀ k v, (k, v) ∈ MAP_REPO_TO_PARSER_PY →
      registryLookup MAP_REPO_TO_PARSER_PY k = some v) ∧
    (∀ k, k ∉ MAP_REPO_TO_PARSER_PY.map Prod.fst →
      registryLookup MAP_REPO_TO_PARSER_PY k = none) ∧
    (∀ k v, registryLookup MAP_REPO_TO_PARSER_PY k = some v → v ≠ ParserId.swa) := by
  refine ⟨?_, ?_, ?_⟩
  · intro k v hm
    exact registryLookup_of_mem _ _ _ (by decide) hm
  · intro k hk
    exact registryLookup_eq_none _ _ hk
  · intro k v h he
    subst he
    have hv : ParserId.swa ∈ MAP_REPO_TO_PARSER_PY.map Prod.snd :=
      List.mem_map_of_mem Prod.snd (registryLookup_mem _ _ _ h)
    revert hv
    decide

/-- Witness for C8 at concrete identities. -/
theorem C8_registry_exact_lookup_witness :
    registryLookup MAP_REPO_TO_PARSER_PY "django/django" = some ParserId.django ∧
    registryLookup MAP_REPO_TO_PARSER_PY "unknown/repo" = none :=
  ⟨C8_registry_exact_lookup.1 "django/django" ParserId.django (by decide),
   C8_registry_exact_lookup.2.1 "unknown/repo" (by decide)⟩

/-- Claim C2 (code bug): the inline-status seaborn parser is not total.  On
the one-line log FAILED, a line that starts with the Failed label but has no
second whitespace token, the source evaluates line.split()[1] and raises
IndexError (modelled none); the claim says malformed lines are skipped
silently.  A Failed line with a second token parses normally. -/
theorem C2_seaborn_raises_on_bare_failed :
    parse_log_seaborn "FAILED".toList = none ∧
    parse_log_seaborn "FAILED t boom".toList
      = some [("t".toList, "FAILED".toList)] := by
  constructor <;> rfl

/-! ### Claim C3: generic fallback merge is first-wins -/

theorem dlookup_foldl_dinsert_of_none (items : List (Str × Str)) :
    ∀ (acc : Dict) (k : Str), (∀ kv ∈ items, ¬ kv.1 = k) →
    dlookup (items.foldl (fun d kv => dinsert d kv.1 kv.2) acc) k = dlookup acc k := by
  induction items with
  | nil => intro acc k _; rfl
  | cons kv rest ih =>
    intro acc k h
    simp only [List.foldl_cons]
    rw [ih _ _ (fun x hx => h x (List.mem_cons_of_mem _ hx))]
    exact dlookup_dinsert_ne _ _ _ _ (h kv (List.mem_cons_self _ _))

/-- Claim C3: in swa_parser the status-prefix pass populates the result
first and the name-then-status pass adds only identifiers not already
present, so any identifier the status-prefix pass maps keeps that status in
the merged result, whatever the other pass said. -/
theorem C3_swa_merge_first_wins (log k v : Str)
    (h : dlookup (parser_pytest (normalize_log log)) k = some v) :
    dlookup (swaParser log) k = some v := by
  show dlookup
      (((parser_unittest (normalize_log log)).filter
          (fun kv => !dHasKey (parser_pytest (normalize_log log)) kv.1)).foldl
        (fun d kv => dinsert d kv.1 kv.2) (parser_pytest (normalize_log log))) k
      = some v
  rw [dlookup_foldl_dinsert_of_none]
  · exact h
  · intro kv hkv he
    have hp := List.of_mem_filter hkv
    rw [he] at hp
    simp [dHasKey, h] at hp

/-- Witness for C3: a log where both passes match the same identifier with
different statuses; the status-prefix pass wins. -/
theorem C3_swa_merge_first_wins_witness :
    dlookup (parser_unittest (normalize_log "PASSED test\ntest ... fail".toList))
      "test".toList = some "FAILED".toList ∧
    dlookup (swaParser "PASSED test\ntest ... fail".toList) "test".toList
      = some "PASSED".toList :=
  ⟨by decide, C3_swa_merge_first_wins _ _ _ (by decide)⟩

/-! ### Claim C10: the sympy banner match needs no underscores -/

/-- Claim C10 counterexample: the log made of space, a.py:1, space, b.py:2,
space contains the space-delimited occurrence of a.py:1 between single
spaces, yet the parser does not record a.py:1 at all: the greedy name group
of the banner pattern extends across the line and the single recorded
identifier is a.py:1 b.py:2. -/
theorem C10_sympy_counterexample :
    pyContainsSub " a.py:1 b.py:2 ".toList " a.py:1 ".toList = true ∧
    dlookup (parse_log_sympy " a.py:1 b.py:2 ".toList) "a.py:1".toList = none ∧
    parse_log_sympy " a.py:1 b.py:2 ".toList
      = [("a.py:1 b.py:2".toList, "FAILED".toList)] := by
  refine ⟨?_, ?_, ?_⟩ <;> rfl

/-- Claim C10 amended: the banner match indeed requires no underscores: a
log whose line carries a lone space-delimited name.py:rest — the underscore
runs on both sides may be present, absent, or replaced by other text after
the trailing space — records that identifier as Failed; in particular the
log of a space, a.py:1 and a space alone yields a.py:1 mapped to Failed.
(The rule does not extend to every log containing such an occurrence: the
name group is greedy within the line, see the counterexample.) -/
theorem C10_sympy_no_underscores_needed :
    parse_log_sympy " a.py:1 ".toList = [("a.py:1".toList, "FAILED".toList)] ∧
    parse_log_sympy "__ a.py:1 __".toList = [("a.py:1".toList, "FAILED".toList)] ∧
    parse_log_sympy " a.py:1 xyz".toList = [("a.py:1".toList, "FAILED".toList)] ∧
    parse_log_sympy "x a.py:1\n b.py:2 _".toList
      = [("b.py:2".toList, "FAILED".toList)] := by
  refine ⟨?_, ?_, ?_, ?_⟩ <;> rfl

/-! ### Claim C4: the summary-narrowing step -/

/-- Claim C4 (amended form): the narrowing step leaves a log without the
banner unchanged; a log whose banner count is one is cut to the suffix that
starts at the first banner occurrence; a log whose banner count is two or
more becomes the concatenation of the captured banner-to-terminator blocks,
each followed by a newline (newline-terminated, not newline-separated), with
unterminated blocks dropped by the findall. -/
theorem C4_narrowing (log : Str) :
    (pyContainsSub log SEP = false → narrowStep log = log) ∧
    (∀ i, pyFindSub log SEP = some i → pyCountSub log SEP = 1 →
      narrowStep log = log.drop i) ∧
    (2 ≤ pyCountSub log SEP →
      narrowStep log = (findBlocks log).foldl (fun acc b => acc ++ b ++ ['\n']) []) := by
  refine ⟨?_, ?_, ?_⟩
  · intro h
    simp [narrowStep, h]
  · intro i h1 h2
    simp [narrowStep, pyContainsSub, h1, h2]
  · intro h
    have hc : pyContainsSub log SEP = true := by
      unfold pyCountSub pyCountSubF at h
      unfold pyContainsSub pyFindSub
      rcases hf : firstFrom (fun i => sliceEq log i SEP) 0 (log.length + 1) with _ | i
      · rw [hf] at h
        simp at h
      · simp
    have hne : ¬ pyCountSub log SEP = 1 := by omega
    simp [narrowStep, hc, hne]

/-- Witness for C4 on a banner-free log and on a log with two banners, two
terminators. -/
theorem C4_narrowing_witness :
    narrowStep "no banner FAILED t".toList = "no banner FAILED t".toList ∧
    narrowStep (SEP ++ "\nA\n===== in 0.01s =====\n".toList
        ++ SEP ++ "\nB\n===== in 0.01s =====".toList)
      = (findBlocks (SEP ++ "\nA\n===== in 0.01s =====\n".toList
        ++ SEP ++ "\nB\n===== in 0.01s =====".toList)).foldl
          (fun acc b => acc ++ b ++ ['\n']) [] :=
  ⟨(C4_narrowing _).1 (by decide), (C4_narrowing _).2.2 (by decide)⟩

/-- Claim C4 counterexample: with two banners and two terminators the
narrowing writes a newline after every captured block, so the output is not
the concatenation of the blocks separated by newlines: it carries a trailing
newline. -/
theorem C4_narrowing_counterexample :
    2 ≤ pyCountSub (SEP ++ "\nA\n===== in 0.01s =====\n".toList
        ++ SEP ++ "\nB\n===== in 0.01s =====".toList) SEP ∧
    findBlocks (SEP ++ "\nA\n===== in 0.01s =====\n".toList
        ++ SEP ++ "\nB\n===== in 0.01s =====".toList)
      = ["\nA\n".toList, "\nB\n".toList] ∧
    narrowStep (SEP ++ "\nA\n===== in 0.01s =====\n".toList
        ++ SEP ++ "\nB\n===== in 0.01s =====".toList)
      ≠ "\nA\n".toList ++ '\n' :: "\nB\n".toList ∧
    narrowStep (SEP ++ "\nA\n===== in 0.01s =====\n".toList
        ++ SEP ++ "\nB\n===== in 0.01s =====".toList)
      = "\nA\n\n\nB\n\n".toList := by
  refine ⟨by decide, by decide, by decide, by decide⟩

/-! ### Claim C9: matplotlib equals pytest after line-wise replacement -/

theorem splitNlAux_no_nl (s : Str) :
    ∀ (acc : Str), '\n' ∉ acc → ∀ l ∈ splitNlAux s acc, '\n' ∉ l := by
  induction s with
  | nil =>
    intro acc hacc l hl
    simp only [splitNlAux, List.mem_singleton] at hl
    subst hl
    simpa using hacc
  | cons c rest ih =>
    intro acc hacc l hl
    by_cases hc : c = '\n'
    · rw [splitNlAux, if_pos hc] at hl
      rcases List.mem_cons.mp hl with h | h
      · subst h; simpa using hacc
      · exact ih [] (by simp) l h
    · rw [splitNlAux, if_neg hc] at hl
      refine ih (c :: acc) ?_ l hl
      intro hmem
      rcases List.mem_cons.mp hmem with h | h
      · exact hc h.symm
      · exact hacc h

theorem splitNl_no_nl (s : Str) : ∀ l ∈ splitNl s, '\n' ∉ l :=
  splitNlAux_no_nl s [] (by simp)

theorem splitNlAux_ne_nil (s : Str) : ∀ acc, splitNlAux s acc ≠ [] := by
  induction s with
  | nil => intro acc; simp [splitNlAux]
  | cons c rest ih =>
    intro acc
    by_cases hc : c = '\n' <;> simp [splitNlAux, hc, ih]

theorem splitNl_ne_nil (s : Str) : splitNl s ≠ [] :=
  splitNlAux_ne_nil s []

theorem splitNlAux_no_nl_eq (l : Str) :
    ∀ acc, '\n' ∉ l → splitNlAux l acc = [acc.reverse ++ l] := by
  induction l with
  | nil => intro acc _; simp [splitNlAux]
  | cons c rest ih =>
    intro acc h
    have hc : ¬ c = '\n' := fun he => h (by simp [he])
    rw [splitNlAux, if_neg hc, ih (c :: acc) (fun hm => h (List.mem_cons_of_mem _ hm))]
    simp

theorem splitNlAux_append_nl (l t : Str) :
    ∀ acc, '\n' ∉ l →
    splitNlAux (l ++ '\n' :: t) acc = (acc.reverse ++ l) :: splitNlAux t [] := by
  induction l with
  | nil => intro acc _; simp [splitNlAux]
  | cons c rest ih =>
    intro acc h
    have hc : ¬ c = '\n' := fun he => h (by simp [he])
    rw [List.cons_append, splitNlAux, if_neg hc,
      ih (c :: acc) (fun hm => h (List.mem_cons_of_mem _ hm))]
    simp

theorem splitNl_joinNl (ls : List Str) (h : ∀ l ∈ ls, '\n' ∉ l) (hne : ls ≠ []) :
    splitNl (joinNl ls) = ls := by
  induction ls with
  | nil => exact absurd rfl hne
  | cons l rest ih =>
    match rest with
    | [] =>
      show splitNlAux (joinNl [l]) [] = [l]
      rw [joinNl, splitNlAux_no_nl_eq l [] (h l (List.mem_cons_self _ _))]
      simp
    | r :: rs =>
      show splitNlAux (l ++ '\n' :: joinNl (r :: rs)) [] = l :: r :: rs
      rw [splitNlAux_append_nl l _ [] (h l (List.mem_cons_self _ _))]
      simp only [List.reverse_nil, List.nil_append]
      have := ih (fun x hx => h x (List.mem_cons_of_mem _ hx)) (by simp)
      rw [show splitNlAux (joinNl (r :: rs)) [] = splitNl (joinNl (r :: rs)) from rfl, this]

theorem pyReplaceF_no_nl (old new : Str) (hnew : '\n' ∉ new) :
    ∀ (f : Nat) (s : Str), '\n' ∉ s → '\n' ∉ pyReplaceF f s old new := by
  intro f
  induction f with
  | zero => intro s hs; exact hs
  | succ f ih =>
    intro s hs
    match s with
    | [] => simp [pyReplaceF]
    | c :: rest =>
      rw [pyReplaceF]
      by_cases hb : begMatch old (c :: rest) = true
      · rw [if_pos hb]
        intro hm
        rcases List.mem_append.mp hm with h | h
        · exact hnew h
        · exact ih _ (fun hd => hs ((List.drop_sublist _ _).mem hd)) h
      · rw [if_neg hb]
        intro hm
        rcases List.mem_cons.mp hm with h | h
        · exact hs (List.mem_cons.mpr (Or.inl h))
        · exact ih rest (fun hd => hs (List.mem_cons_of_mem _ hd)) h

theorem pyReplace_no_nl (s old new : Str) (hs : '\n' ∉ s) (hnew : '\n' ∉ new) :
    '\n' ∉ pyReplace s old new :=
  pyReplaceF_no_nl old new hnew s.length s hs

/-- Claim C9: for every log, the matplotlib parser returns exactly what the
simple-prefix pytest parser returns on the log in which, line by line,
every occurrence of MouseButton.LEFT is replaced by 1 and every occurrence
of MouseButton.RIGHT by 3; the replacement is the only behavioural
difference between the two parsers. -/
theorem C9_matplotlib_is_pytest_after_replace (log : Str) :
    parse_log_matplotlib log
      = parse_log_pytest (joinNl ((splitNl log).map mouseButtonReplace)) := by
  unfold parse_log_pytest parse_log_matplotlib
  rw [splitNl_joinNl]
  · rw [List.foldl_map]
    rfl
  · intro l hl
    obtain ⟨l0, hl0, rfl⟩ := List.mem_map.mp hl
    exact pyReplace_no_nl _ _ _
      (pyReplace_no_nl _ _ _ (splitNl_no_nl _ _ hl0) (by decide)) (by decide)
  · simp [splitNl_ne_nil]

/-! ### begMatch, firstFrom and token lemmas -/

theorem begMatch_append_self (p r : Str) : begMatch p (p ++ r) = true := by
  induction p with
  | nil => rfl
  | cons c cs ih => simp [begMatch, ih]

theorem begMatch_iff_exists (p s : Str) :
    begMatch p s = true ↔ ∃ r, s = p ++ r := by
  constructor
  · intro h
    induction p generalizing s with
    | nil => exact ⟨s, rfl⟩
    | cons c cs ih =>
      match s with
      | [] => simp [begMatch] at h
      | d :: ds =>
        simp only [begMatch, Bool.and_eq_true, decide_eq_true_eq] at h
        obtain ⟨r, hr⟩ := ih ds h.2
        exact ⟨r, by simp [h.1, hr]⟩
  · rintro ⟨r, rfl⟩
    exact begMatch_append_self p r

theorem firstFromF_some (p : Nat → Bool) :
    ∀ (f n m : Nat), firstFromF p n f = some m →
    n ≤ m ∧ m < n + f ∧ p m = true ∧ ∀ k, n ≤ k → k < m → p k = false := by
  intro f
  induction f with
  | zero => intro n m h; simp [firstFromF] at h
  | succ f ih =>
    intro n m h
    rw [firstFromF] at h
    by_cases hp : p n = true
    · rw [if_pos hp] at h
      cases h
      exact ⟨Nat.le_refl _, by omega, hp, fun k h1 h2 => absurd h1 (by omega)⟩
    · rw [if_neg hp] at h
      obtain ⟨h1, h2, h3, h4⟩ := ih (n + 1) m h
      refine ⟨by omega, by omega, h3, fun k hk1 hk2 => ?_⟩
      rcases Nat.eq_or_lt_of_le hk1 with he | hl
      · subst he; simpa using hp
      · exact h4 k hl hk2

theorem firstFromF_none (p : Nat → Bool) :
    ∀ (f n : Nat), firstFromF p n f = none →
    ∀ k, n ≤ k → k < n + f → p k = false := by
  intro f
  induction f with
  | zero => intro n _ k h1 h2; omega
  | succ f ih =>
    intro n h k h1 h2
    rw [firstFromF] at h
    by_cases hp : p n = true
    · rw [if_pos hp] at h; cases h
    · rw [if_neg hp] at h
      rcases Nat.eq_or_lt_of_le h1 with he | hl
      · subst he; simpa using hp
      · exact ih (n + 1) h k hl (by omega)

theorem firstFromF_of (p : Nat → Bool) :
    ∀ (f n m : Nat), p m = true → n ≤ m → m < n + f →
    (∀ k, n ≤ k → k < m → p k = false) → firstFromF p n f = some m := by
  intro f
  induction f with
  | zero => intro n m _ _ h; omega
  | succ f ih =>
    intro n m hp h1 h2 hmin
    rw [firstFromF]
    rcases Nat.eq_or_lt_of_le h1 with he | hl
    · subst he; rw [if_pos hp]
    · rw [if_neg (by simp [hmin n (Nat.le_refl _) hl])]
      exact ih (n + 1) m hp hl (by omega) (fun k hk1 hk2 => hmin k (by omega) hk2)

theorem firstFrom_some (p : Nat → Bool) (n stop m : Nat)
    (h : firstFrom p n stop = some m) :
    n ≤ m ∧ m < stop ∧ p m = true ∧ ∀ k, n ≤ k → k < m → p k = false := by
  obtain ⟨h1, h2, h3, h4⟩ := firstFromF_some p (stop - n) n m h
  exact ⟨h1, by omega, h3, h4⟩

theorem firstFrom_none (p : Nat → Bool) (n stop : Nat)
    (h : firstFrom p n stop = none) :
    ∀ k, n ≤ k → k < stop → p k = false := by
  intro k h1 h2
  exact firstFromF_none p (stop - n) n h k h1 (by omega)

theorem firstFrom_of (p : Nat → Bool) (n stop m : Nat)
    (hp : p m = true) (h1 : n ≤ m) (h2 : m < stop)
    (hmin : ∀ k, n ≤ k → k < m → p k = false) :
    firstFrom p n stop = some m :=
  firstFromF_of p (stop - n) n m hp h1 (by omega) hmin

theorem firstFrom_isSome_of (p : Nat → Bool) (n stop m : Nat)
    (hp : p m = true) (h1 : n ≤ m) (h2 : m < stop) :
    (firstFrom p n stop).isSome = true := by
  rcases hf : firstFrom p n stop with _ | i
  · exact absurd (firstFrom_none p n stop hf m h1 h2) (by simp [hp])
  · rfl

theorem splitWSAux_nonws (w : Str) :
    ∀ (s acc : Str), (∀ c ∈ w, pyIsSpace c = false) →
    splitWSAux (w ++ s) acc = splitWSAux s (w.reverse ++ acc) := by
  induction w with
  | nil => intro s acc _; rfl
  | cons c cs ih =>
    intro s acc h
    have hc : pyIsSpace c = false := h c (List.mem_cons_self _ _)
    rw [List.cons_append, splitWSAux]
    rw [if_neg (by simp [hc])]
    rw [ih s (c :: acc) (fun x hx => h x (List.mem_cons_of_mem _ hx))]
    simp

theorem splitWSAux_all_nonws (t : Str) :
    ∀ (acc : Str), (∀ c ∈ t, pyIsSpace c = false) → acc ≠ [] ∨ t ≠ [] →
    splitWSAux t acc = [acc.reverse ++ t] := by
  induction t with
  | nil =>
    intro acc _ hne
    have : acc ≠ [] := by tauto
    simp [splitWSAux, List.isEmpty_iff, this]
  | cons c cs ih =>
    intro acc h _
    have hc : pyIsSpace c = false := h c (List.mem_cons_self _ _)
    rw [splitWSAux, if_neg (by simp [hc]),
      ih (c :: acc) (fun x hx => h x (List.mem_cons_of_mem _ hx)) (Or.inl (by simp))]
    simp

/-- Splitting a status word, a space and a whitespace-free token. -/
theorem pySplitWS_two (w t : Str)
    (hw : ∀ c ∈ w, pyIsSpace c = false) (hwne : w ≠ [])
    (ht : ∀ c ∈ t, pyIsSpace c = false) (htne : t ≠ []) :
    pySplitWS (w ++ ' ' :: t) = [w, t] := by
  unfold pySplitWS
  rw [splitWSAux_nonws w (' ' :: t) [] hw]
  rw [splitWSAux, if_pos (by simp [pyIsSpace])]
  have hae : (w.reverse ++ ([] : Str)).isEmpty = false := by
    simp [List.isEmpty_iff, hwne]
  rw [hae]
  simp only [Bool.false_eq_true, if_false]
  rw [splitWSAux_all_nonws t [] ht (Or.inr htne)]
  simp

theorem splitWSAux_head_acc (r : Str) :
    ∀ (acc : Str), acc ≠ [] →
    ∃ ext rest, splitWSAux r acc = (acc.reverse ++ ext) :: rest := by
  induction r with
  | nil =>
    intro acc hacc
    refine ⟨[], [], ?_⟩
    simp [splitWSAux, List.isEmpty_iff, hacc]
  | cons c cs ih =>
    intro acc hacc
    by_cases hc : pyIsSpace c = true
    · refine ⟨[], splitWSAux cs [], ?_⟩
      simp [splitWSAux, hc, List.isEmpty_iff, hacc]
    · obtain ⟨ext, rest, hr⟩ := ih (c :: acc) (by simp)
      refine ⟨c :: ext, rest, ?_⟩
      rw [splitWSAux, if_neg hc, hr]
      simp

/-- The first whitespace token of a line that starts with a whitespace-free
nonempty word extends that word. -/
theorem pySplitWS_head_of_begMatch (w line : Str)
    (hw : ∀ c ∈ w, pyIsSpace c = false) (hwne : w ≠ [])
    (hb : begMatch w line = true) :
    ∃ ext rest, pySplitWS line = (w ++ ext) :: rest := by
  obtain ⟨r, rfl⟩ := (begMatch_iff_exists w line).mp hb
  unfold pySplitWS
  rw [splitWSAux_nonws w r [] hw]
  obtain ⟨ext, rest, hr⟩ := splitWSAux_head_acc r (w.reverse ++ []) (by simp [hwne])
  exact ⟨ext, rest, by simpa using hr⟩

/-! ### Claim C5: bracketed-option collapsing -/

/-- Claim C5: in the prefix-with-parameterization parser the bracketed
options portion of an extracted identifier is collapsed to a slash plus its
final path component exactly when it starts with a single slash (not a
double slash) and contains no star, and is kept verbatim otherwise;
concretely the absolute-path example collapses and the wildcard example is
kept verbatim. -/
theorem C5_options_collapse :
    parse_log_pytest_options "PASSED test_foo[/home/user/data/file.txt]".toList
      = [("test_foo[/file.txt]".toList, "PASSED".toList)] ∧
    parse_log_pytest_options "PASSED test_foo[abc*]".toList
      = [("test_foo[abc*]".toList, "PASSED".toList)] ∧
    ∀ opts : Str, (∀ c ∈ opts, pyIsSpace c = false ∧ c ≠ ']') →
      parse_log_pytest_options ("PASSED test_foo[".toList ++ opts ++ [']'])
        = [("test_foo[".toList ++
            (if begMatch "/".toList opts && !begMatch "//".toList opts
                && !opts.contains '*'
             then "/".toList ++ (splitSep '/' opts).getLastD []
             else opts) ++ [']'], "PASSED".toList)] := by
  refine ⟨by rfl, by rfl, ?_⟩
  intro opts h
  set t : Str := "test_foo[".toList ++ opts ++ [']'] with ht
  have hline : "PASSED test_foo[".toList ++ opts ++ [']']
      = "PASSED".toList ++ ' ' :: t := by
    simp [ht]
  have hlit1 : ∀ c ∈ ("test_foo[".toList : Str), pyIsSpace c = false := by decide
  have hlit2 : ∀ c ∈ ("PASSED".toList : Str), ¬ c = '\n' := by decide
  have htok : ∀ c ∈ t, pyIsSpace c = false := by
    intro c hc
    rw [ht] at hc
    rcases List.mem_append.mp hc with hc1 | hc2
    · rcases List.mem_append.mp hc1 with hc3 | hc4
      · exact hlit1 c hc3
      · exact (h c hc4).1
    · rcases List.mem_cons.mp hc2 with hc5 | hc6
      · subst hc5; decide
      · exact absurd hc6 (List.not_mem_nil c)
  have hnonl : '\n' ∉ "PASSED test_foo[".toList ++ opts ++ [']'] := by
    rw [hline]
    intro hm
    rcases List.mem_append.mp hm with h1 | h2
    · exact hlit2 '\n' h1 rfl
    · rcases List.mem_cons.mp h2 with h3 | h4
      · exact absurd h3 (by decide)
      · have := htok '\n' h4
        simp [pyIsSpace] at this
  have hlen : t.length = opts.length + 10 := by
    rw [ht]
    simp [List.length_append]
  unfold parse_log_pytest_options
  have hsplit : splitNl ("PASSED test_foo[".toList ++ opts ++ [']'])
      = ["PASSED test_foo[".toList ++ opts ++ [']']] := by
    unfold splitNl
    rw [splitNlAux_no_nl_eq _ [] hnonl]
    rfl
  rw [hsplit, List.foldl_cons, List.foldl_nil]
  unfold pytestOptionsLine
  have hstart : startsWithAnyStatus ("PASSED test_foo[".toList ++ opts ++ [']']) = true := by
    rw [hline]
    unfold startsWithAnyStatus statusValues statusList
    simp only [List.map_cons, List.any_cons]
    rw [show TestStatus.PASSED.value = "PASSED".toList from rfl]
    rw [begMatch_append_self "PASSED".toList (' ' :: t)]
    rfl
  rw [if_pos hstart]
  have hfailed : begMatch TestStatus.FAILED.value
      ("PASSED test_foo[".toList ++ opts ++ [']']) = false := by
    rw [hline]
    rfl
  rw [hfailed]
  simp only [Bool.false_eq_true, if_false]
  rw [hline, pySplitWS_two "PASSED".toList t (by decide) (by decide) htok (by simp [ht])]
  simp only [List.length_cons, List.length_nil, nth]
  rw [if_neg (by omega)]
  have hfi : firstCharIdx t '[' = some 8 := by
    unfold firstCharIdx
    apply firstFrom_of
    · rw [ht]
      rfl
    · omega
    · omega
    · intro k _ hk
      interval_cases k <;> (rw [ht]; rfl)
  have hla : lastCharIdx t ']' = some (t.length - 1) := by
    have hrev : t.reverse = ']' :: ("test_foo[".toList ++ opts).reverse := by
      rw [ht, show "test_foo[".toList ++ opts ++ [']']
        = ("test_foo[".toList ++ opts) ++ [']'] by simp, List.reverse_append]
      rfl
    have h0 : firstCharIdx t.reverse ']' = some 0 := by
      unfold firstCharIdx
      apply firstFrom_of
      · rw [hrev]; rfl
      · omega
      · rw [hrev]; simp
      · omega
    unfold lastCharIdx
    rw [h0]
    show some (t.length - 1 - 0) = some (t.length - 1)
    simp
  have htake : t.take 8 = "test_foo".toList := by
    rw [ht, show ("test_foo[".toList ++ opts ++ [']'] : Str)
      = "test_foo[".toList ++ (opts ++ [']']) by simp]
    rw [List.take_append_of_le_length (by decide)]
    rfl
  have hslice : strSlice t 9 (t.length - 1) = opts := by
    unfold strSlice
    rw [show t.length - 1 - 9 = opts.length from by omega]
    have hdrop : t.drop 9 = opts ++ [']'] := by
      rw [ht, show ("test_foo[".toList ++ opts ++ [']'] : Str)
        = "test_foo[".toList ++ (opts ++ [']']) by simp,
        show (9 : Nat) = ("test_foo[".toList : Str).length from rfl, List.drop_left]
    rw [hdrop, List.take_left]
  have hsearch : option_pattern_search t = some ("test_foo".toList, opts) := by
    unfold option_pattern_search
    rw [hfi, hla]
    show (if 8 < t.length - 1
        then some (t.take 8, strSlice t 9 (t.length - 1)) else none)
      = some ("test_foo".toList, opts)
    rw [if_pos (by omega), htake, hslice]
  simp only [Option.getD_some]
  rw [hsearch]
  rw [show ("test_foo[".toList : Str) = "test_foo".toList ++ "[".toList from rfl,
    show ([']'] : Str) = "]".toList from rfl]
  simp [dinsert, List.append_assoc]

/-- Witness for the general clause of C5 at a concrete options string. -/
theorem C5_options_collapse_witness :
    parse_log_pytest_options ("PASSED test_foo[".toList ++ "/a/b".toList ++ [']'])
      = [("test_foo[".toList ++
          (if begMatch "/".toList "/a/b".toList
              && !begMatch "//".toList "/a/b".toList
              && !"/a/b".toList.contains '*'
           then "/".toList ++ (splitSep '/' "/a/b".toList).getLastD []
           else "/a/b".toList) ++ [']'], "PASSED".toList)] :=
  C5_options_collapse.2.2 "/a/b".toList (by decide)

/-! ### Claim C1: which values the prefix parsers store -/

theorem mem_dinsert (m : Dict) (k v k2 v2 : Str)
    (h : (k, v) ∈ dinsert m k2 v2) : (k, v) ∈ m ∨ v = v2 := by
  induction m with
  | nil =>
    simp only [dinsert, List.mem_singleton, Prod.mk.injEq] at h
    exact Or.inr h.2
  | cons kv rest ih =>
    obtain ⟨k0, v0⟩ := kv
    by_cases h0 : k0 = k2
    · rw [dinsert, if_pos h0] at h
      rcases List.mem_cons.mp h with h1 | h1
      · exact Or.inr (Prod.mk.injEq .. ▸ h1).2
      · exact Or.inl (List.mem_cons_of_mem _ h1)
    · rw [dinsert, if_neg h0] at h
      rcases List.mem_cons.mp h with h1 | h1
      · exact Or.inl (List.mem_cons.mpr (Or.inl h1))
      · rcases ih h1 with h2 | h2
        · exact Or.inl (List.mem_cons_of_mem _ h2)
        · exact Or.inr h2

theorem nth_of_lt {α : Type} : ∀ (l : List α) (n : Nat), n < l.length →
    ∃ x, nth l n = some x := by
  intro l
  induction l with
  | nil => intro n h; simp at h
  | cons a rest ih =>
    intro n h
    match n with
    | 0 => exact ⟨a, rfl⟩
    | n + 1 => exact ih n (by simpa using h)

theorem statusValues_tokens :
    ∀ s ∈ statusValues, (∀ c ∈ s, pyIsSpace c = false) ∧ s ≠ [] ∧
      (∀ c ∈ s, ¬ c = ' ') := by
  decide

/-- Replacing a pattern that starts with a space preserves a space-free
head of the string. -/
theorem begMatch_pyReplaceF_space (w : Str) (hw : ∀ c ∈ w, ¬ c = ' ') :
    ∀ (f : Nat) (s old' new : Str), begMatch w s = true →
    begMatch w (pyReplaceF f s (' ' :: old') new) = true := by
  induction w with
  | nil => intro f s old' new _; rfl
  | cons c cs ih =>
    intro f s old' new h
    match s with
    | [] => simp [begMatch] at h
    | d :: ds =>
      simp only [begMatch, Bool.and_eq_true, decide_eq_true_eq] at h
      obtain ⟨hcd, hrest⟩ := h
      subst hcd
      match f with
      | 0 =>
        simp [pyReplaceF, begMatch, hrest]
      | f + 1 =>
        rw [pyReplaceF]
        have hno : begMatch (' ' :: old') (c :: ds) = false := by
          simp [begMatch]
          intro he
          exact absurd he.symm (hw c (List.mem_cons_self _ _))
        rw [hno]
        simp only [Bool.false_eq_true, if_false, begMatch, decide_True, Bool.true_and]
        exact ih (fun x hx => hw x (List.mem_cons_of_mem _ hx)) f ds old' new hrest

theorem begMatch_pyReplace_space (w s old' new : Str)
    (hw : ∀ c ∈ w, ¬ c = ' ') (h : begMatch w s = true) :
    begMatch w (pyReplace s (' ' :: old') new) = true :=
  begMatch_pyReplaceF_space w hw s.length s old' new h

/-- The value written by one pytest-style line step extends a canonical
status spelling. -/
theorem pytestLine_value (m : Dict) (line k v : Str)
    (h : (k, v) ∈ pytestLine m line) :
    (k, v) ∈ m ∨ ∃ s ∈ statusValues, begMatch s v = true := by
  unfold pytestLine at h
  by_cases hs : startsWithAnyStatus line = true
  · rw [if_pos hs] at h
    by_cases hlen : (pySplitWS (if begMatch TestStatus.FAILED.value line = true
        then pyReplace line " - ".toList " ".toList else line)).length ≤ 1
    · rw [if_pos hlen] at h
      exact Or.inl h
    · rw [if_neg hlen] at h
      rcases mem_dinsert _ _ _ _ _ h with h1 | h1
      · exact Or.inl h1
      · subst h1
        refine Or.inr ?_
        by_cases hF : begMatch TestStatus.FAILED.value line = true
        · rw [if_pos hF]
          have hw := statusValues_tokens TestStatus.FAILED.value (by decide)
          have hb : begMatch TestStatus.FAILED.value
              (pyReplace line " - ".toList " ".toList) = true :=
            begMatch_pyReplace_space _ _ _ _ hw.2.2 hF
          obtain ⟨ext, rest, hr⟩ := pySplitWS_head_of_begMatch _ _ hw.1 hw.2.1 hb
          refine ⟨TestStatus.FAILED.value, by decide, ?_⟩
          rw [hr]
          exact begMatch_append_self _ _
        · rw [if_neg hF]
          unfold startsWithAnyStatus at hs
          obtain ⟨s, hsm, hsb⟩ := List.any_eq_true.mp hs
          have hw := statusValues_tokens s hsm
          obtain ⟨ext, rest, hr⟩ := pySplitWS_head_of_begMatch _ _ hw.1 hw.2.1 hsb
          refine ⟨s, hsm, ?_⟩
          rw [hr]
          exact begMatch_append_self _ _
  · rw [if_neg hs] at h
    exact Or.inl h

theorem v2Line_value (m : Dict) (rawLine k v : Str)
    (h : (k, v) ∈ v2Line m rawLine) :
    (k, v) ∈ m ∨ (∃ s ∈ statusValues, begMatch s v = true) ∨
      (endsWithAnyStatus (v2Clean rawLine) = true ∧
       nth (pySplitWS (v2Clean rawLine)) 1 = some v) := by
  unfold v2Line at h
  by_cases hs : startsWithAnyStatus (v2Clean rawLine) = true
  · rw [if_pos hs] at h
    by_cases hlen : (pySplitWS (if begMatch TestStatus.FAILED.value (v2Clean rawLine) = true
        then pyReplace (v2Clean rawLine) " - ".toList " ".toList
        else v2Clean rawLine)).length ≥ 2
    · rw [if_pos hlen] at h
      rcases mem_dinsert _ _ _ _ _ h with h1 | h1
      · exact Or.inl h1
      · subst h1
        refine Or.inr (Or.inl ?_)
        by_cases hF : begMatch TestStatus.FAILED.value (v2Clean rawLine) = true
        · rw [if_pos hF]
          have hw := statusValues_tokens TestStatus.FAILED.value (by decide)
          have hb : begMatch TestStatus.FAILED.value
              (pyReplace (v2Clean rawLine) " - ".toList " ".toList) = true :=
            begMatch_pyReplace_space _ _ _ _ hw.2.2 hF
          obtain ⟨ext, rest, hr⟩ := pySplitWS_head_of_begMatch _ _ hw.1 hw.2.1 hb
          refine ⟨TestStatus.FAILED.value, by decide, ?_⟩
          rw [hr]
          exact begMatch_append_self _ _
        · rw [if_neg hF]
          unfold startsWithAnyStatus at hs
          obtain ⟨s, hsm, hsb⟩ := List.any_eq_true.mp hs
          have hw := statusValues_tokens s hsm
          obtain ⟨ext, rest, hr⟩ := pySplitWS_head_of_begMatch _ _ hw.1 hw.2.1 hsb
          refine ⟨s, hsm, ?_⟩
          rw [hr]
          exact begMatch_append_self _ _
    · rw [if_neg hlen] at h
      exact Or.inl h
  · rw [if_neg hs] at h
    by_cases he : endsWithAnyStatus (v2Clean rawLine) = true
    · rw [if_pos he] at h
      by_cases hlen : (pySplitWS (v2Clean rawLine)).length ≥ 2
      · rw [if_pos hlen] at h
        rcases mem_dinsert _ _ _ _ _ h with h1 | h1
        · exact Or.inl h1
        · subst h1
          obtain ⟨x, hx⟩ := nth_of_lt (pySplitWS (v2Clean rawLine)) 1 (by omega)
          refine Or.inr (Or.inr ⟨he, ?_⟩)
          rw [hx]
          rfl
      · rw [if_neg hlen] at h
        exact Or.inl h
    · rw [if_neg he] at h
      exact Or.inl h

theorem foldl_dict_inv {P : Str → Prop} {Q : Str → Prop}
    (step : Dict → Str → Dict)
    (hstep : ∀ m line k v, Q line → (k, v) ∈ step m line → (k, v) ∈ m ∨ P v) :
    ∀ (lines : List Str), (∀ l ∈ lines, Q l) → ∀ (m : Dict), (∀ kv ∈ m, P kv.2) →
    ∀ k v, (k, v) ∈ lines.foldl step m → P v := by
  intro lines
  induction lines with
  | nil =>
    intro _ m hm k v h
    exact hm (k, v) h
  | cons l rest ih =>
    intro hq m hm k v h
    simp only [List.foldl_cons] at h
    refine ih (fun x hx => hq x (List.mem_cons_of_mem _ hx)) (step m l) ?_ k v h
    intro kv hkv
    rcases hstep m l kv.1 kv.2 (hq l (List.mem_cons_self _ _))
        (by rw [Prod.mk.eta] at *; exact hkv) with h1 | h1
    · exact hm kv h1
    · exact h1

/-- Claim C1 (amended form): every value stored by the simple-prefix parser
is the first whitespace token of a line beginning with a canonical status
label, and hence always extends a canonical spelling (it equals one exactly
when the label is followed by whitespace); every value stored by the
later-version parser either extends a canonical spelling the same way or is
merely the second whitespace token of a cleaned line that ends with a
canonical spelling, with no guaranteed relation to the canonical set. -/
theorem C1_stored_values (log : Str) :
    (∀ k v, (k, v) ∈ parse_log_pytest log →
      ∃ s ∈ statusValues, begMatch s v = true) ∧
    (∀ k v, (k, v) ∈ parse_log_pytest_v2 log →
      (∃ s ∈ statusValues, begMatch s v = true) ∨
      ∃ l ∈ (splitNl log).map v2Clean,
        endsWithAnyStatus l = true ∧ nth (pySplitWS l) 1 = some v) := by
  constructor
  · intro k v h
    exact foldl_dict_inv (Q := fun _ => True)
      (P := fun v => ∃ s ∈ statusValues, begMatch s v = true) pytestLine
      (fun m line k v _ hh => pytestLine_value m line k v hh)
      (splitNl log) (fun _ _ => trivial) [] (by simp) k v h
  · intro k v h
    exact foldl_dict_inv (Q := fun l => l ∈ splitNl log)
      (P := fun v => (∃ s ∈ statusValues, begMatch s v = true) ∨
        ∃ l ∈ (splitNl log).map v2Clean,
          endsWithAnyStatus l = true ∧ nth (pySplitWS l) 1 = some v)
      v2Line
      (fun m line k v hq hh => by
        rcases v2Line_value m line k v hh with h1 | h1 | h1
        · exact Or.inl h1
        · exact Or.inr (Or.inl h1)
        · exact Or.inr (Or.inr
            ⟨v2Clean line, List.mem_map_of_mem v2Clean hq, h1⟩))
      (splitNl log) (fun _ hx => hx) [] (by simp) k v h

/-- Witness for C1 at a concrete stored pair of each parser. -/
theorem C1_stored_values_witness :
    (∃ s ∈ statusValues, begMatch s "PASSEDx".toList = true) ∧
    ((∃ s ∈ statusValues, begMatch s "bar".toList = true) ∨
      ∃ l ∈ (splitNl "foo bar PASSED".toList).map v2Clean,
        endsWithAnyStatus l = true ∧ nth (pySplitWS l) 1 = some "bar".toList) :=
  ⟨(C1_stored_values "PASSEDx foo".toList).1 "foo".toList "PASSEDx".toList (by decide),
   (C1_stored_values "foo bar PASSED".toList).2 "foo".toList "bar".toList (by decide)⟩

/-- Claim C1 counterexample: the simple-prefix parser stores the raw token
PASSEDx, and the later-version parser's fallback branch stores the plain
token bar; neither is a member of the canonical status set. -/
theorem C1_canonical_values_counterexample :
    parse_log_pytest "PASSEDx foo".toList = [("foo".toList, "PASSEDx".toList)] ∧
    "PASSEDx".toList ∉ statusValues ∧
    parse_log_pytest_v2 "foo bar PASSED".toList = [("foo".toList, "bar".toList)] ∧
    "bar".toList ∉ statusValues := by
  refine ⟨by rfl, by decide, by rfl, by decide⟩

/-! ### Claim C6: the sequential-narrative django parser -/

theorem dlookup_dinsert_stable (m : Dict) (k2 key V : Str)
    (h : dlookup m key = some V) :
    dlookup (dinsert m k2 V) key = some V := by
  by_cases hk : k2 = key
  · subst hk
    exact dlookup_dinsert_self m k2 V
  · rw [dlookup_dinsert_ne _ _ _ _ hk]
    exact h

theorem djangoSuffix_snd_indep (m : Dict) (line : Str) :
    (djangoSuffix m line).2 = (djangoSuffix [] line).2 := by
  unfold djangoSuffix
  rcases djangoSuffixes.find? (fun suf => endMatch suf line) with _ | suf <;> rfl

theorem djangoVersion_pres (m : Dict) (line key : Str)
    (h : key ∉ (if pyContainsSub line "--version is equivalent to version".toList
      then ["--version is equivalent to version".toList] else ([] : List Str))) :
    dlookup (djangoVersion m line) key = dlookup m key := by
  unfold djangoVersion
  by_cases hc : pyContainsSub line "--version is equivalent to version".toList = true
  · rw [if_pos hc]
    rw [if_pos hc] at h
    simp only [List.mem_singleton] at h
    exact dlookup_dinsert_ne _ _ _ _ (fun he => h he.symm)
  · rw [if_neg hc]

theorem djangoVersion_stable (m : Dict) (line key : Str)
    (h : dlookup m key = some TestStatus.PASSED.value) :
    dlookup (djangoVersion m line) key = some TestStatus.PASSED.value := by
  unfold djangoVersion
  split
  · exact dlookup_dinsert_stable _ _ _ _ h
  · exact h

theorem djangoSuffix_pres (m : Dict) (line key : Str)
    (h : key ∉ (match djangoSuffixes.find? (fun suf => endMatch suf line) with
      | some suf => [rsplitBefore (djangoSuffix [] line).2 suf]
      | none => ([] : List Str))) :
    dlookup (djangoSuffix m line).1 key = dlookup m key := by
  unfold djangoSuffix at h ⊢
  rcases hf : djangoSuffixes.find? (fun suf => endMatch suf line) with _ | suf
  · rfl
  · rw [hf] at h
    simp only [List.mem_singleton] at h
    exact dlookup_dinsert_ne _ _ _ _ (fun he => h (by exact he.symm))

theorem djangoSuffix_stable (m : Dict) (line key : Str)
    (h : dlookup m key = some TestStatus.PASSED.value) :
    dlookup (djangoSuffix m line).1 key = some TestStatus.PASSED.value := by
  unfold djangoSuffix
  rcases djangoSuffixes.find? (fun suf => endMatch suf line) with _ | suf
  · exact h
  · exact dlookup_dinsert_stable _ _ _ _ h

theorem djangoSkipped_pres (m : Dict) (line key : Str)
    (h : key ∉ (if pyContainsSub line " ... skipped".toList
      then [beforeFirst line " ... skipped".toList] else ([] : List Str))) :
    dlookup (djangoSkipped m line) key = dlookup m key := by
  unfold djangoSkipped
  by_cases hc : pyContainsSub line " ... skipped".toList = true
  · rw [if_pos hc]
    rw [if_pos hc] at h
    simp only [List.mem_singleton] at h
    exact dlookup_dinsert_ne _ _ _ _ (fun he => h he.symm)
  · rw [if_neg hc]

theorem djangoFailEnd_pres (m : Dict) (line key : Str)
    (h : key ∉ (if endMatch " ... FAIL".toList line
      then [beforeFirst line " ... FAIL".toList] else ([] : List Str))) :
    dlookup (djangoFailEnd m line) key = dlookup m key := by
  unfold djangoFailEnd
  by_cases hc : endMatch " ... FAIL".toList line = true
  · rw [if_pos hc]
    rw [if_pos hc] at h
    simp only [List.mem_singleton] at h
    exact dlookup_dinsert_ne _ _ _ _ (fun he => h he.symm)
  · rw [if_neg hc]

theorem djangoErrorEnd_pres (m : Dict) (line key : Str)
    (h : key ∉ (if endMatch " ... ERROR".toList line
      then [beforeFirst line " ... ERROR".toList] else ([] : List Str))) :
    dlookup (djangoErrorEnd m line) key = dlookup m key := by
  unfold djangoErrorEnd
  by_cases hc : endMatch " ... ERROR".toList line = true
  · rw [if_pos hc]
    rw [if_pos hc] at h
    simp only [List.mem_singleton] at h
    exact dlookup_dinsert_ne _ _ _ _ (fun he => h he.symm)
  · rw [if_neg hc]

theorem djangoFailColon_pres (m m' : Dict) (line key : Str)
    (hs : djangoFailColon m line = some m')
    (h : key ∉ (if begMatch "FAIL:".toList line then
      match nth (pySplitWS line) 1 with
      | some t => [pyStrip t]
      | none => ([] : List Str) else [])) :
    dlookup m' key = dlookup m key := by
  unfold djangoFailColon at hs
  by_cases hc : begMatch "FAIL:".toList line = true
  · rw [if_pos hc] at hs
    rw [if_pos hc] at h
    rcases hn : nth (pySplitWS line) 1 with _ | t
    · rw [hn] at hs; cases hs
    · rw [hn] at hs h
      cases hs
      simp only [List.mem_singleton] at h
      exact dlookup_dinsert_ne _ _ _ _ (fun he => h he.symm)
  · rw [if_neg hc] at hs
    cases hs
    rfl

theorem djangoErrorColon_pres (m m' : Dict) (line key : Str)
    (hs : djangoErrorColon m line = some m')
    (h : key ∉ (if begMatch "ERROR:".toList line then
      match nth (pySplitWS line) 1 with
      | some t => [pyStrip t]
      | none => ([] : List Str) else [])) :
    dlookup m' key = dlookup m key := by
  unfold djangoErrorColon at hs
  by_cases hc : begMatch "ERROR:".toList line = true
  · rw [if_pos hc] at hs
    rw [if_pos hc] at h
    rcases hn : nth (pySplitWS line) 1 with _ | t
    · rw [hn] at hs; cases hs
    · rw [hn] at hs h
      cases hs
      simp only [List.mem_singleton] at h
      exact dlookup_dinsert_ne _ _ _ _ (fun he => h he.symm)
  · rw [if_neg hc] at hs
    cases hs
    rfl

theorem djangoOk_pres (m : Dict) (prev : Option Str) (line key : Str)
    (h : begMatch "ok".toList (pyLstrip line) = false) :
    djangoOk m prev line = m := by
  unfold djangoOk
  rcases prev with _ | pt
  · rfl
  · rw [h]
    simp

theorem djangoOk_stable (m : Dict) (prev : Option Str) (line key : Str)
    (h : dlookup m key = some TestStatus.PASSED.value) :
    dlookup (djangoOk m prev line) key = some TestStatus.PASSED.value := by
  rcases prev with _ | pt
  · exact h
  · show dlookup (if begMatch "ok".toList (pyLstrip line) = true
      then dinsert m pt TestStatus.PASSED.value else m) key = some TestStatus.PASSED.value
    split
    · exact dlookup_dinsert_stable _ _ _ _ h
    · exact h

theorem djangoStep_eq (st : Dict × Option Str) (rawLine : Str) :
    djangoStep st rawLine =
      (djangoFailColon
          (djangoFailEnd
            (djangoSkipped
              (djangoSuffix (djangoVersion st.1 (pyStrip rawLine)) (pyStrip rawLine)).1
              (djangoSuffix (djangoVersion st.1 (pyStrip rawLine)) (pyStrip rawLine)).2)
            (djangoSuffix (djangoVersion st.1 (pyStrip rawLine)) (pyStrip rawLine)).2)
          (djangoSuffix (djangoVersion st.1 (pyStrip rawLine)) (pyStrip rawLine)).2).bind
        (fun m3 =>
          (djangoErrorColon
              (djangoErrorEnd m3 (djangoSuffix (djangoVersion st.1 (pyStrip rawLine)) (pyStrip rawLine)).2)
              (djangoSuffix (djangoVersion st.1 (pyStrip rawLine)) (pyStrip rawLine)).2).bind
            (fun m5 =>
              some (djangoOk m5 (djangoPrev st.2 (pyStrip rawLine)) (djangoSuffix (djangoVersion st.1 (pyStrip rawLine)) (pyStrip rawLine)).2,
                djangoPrev st.2 (pyStrip rawLine)))) := rfl

theorem djangoStep_pres (st st' : Dict × Option Str) (l key : Str)
    (hstep : djangoStep st l = some st')
    (hk : key ∉ djangoLineKeys l) (hok : djangoOkStart l = false) :
    dlookup st'.1 key = dlookup st.1 key := by
  unfold djangoLineKeys djangoNonPassKeys at hk
  simp only [List.mem_append, not_or] at hk
  rw [djangoStep_eq] at hstep
  set line := pyStrip l with hline
  obtain ⟨⟨hk1, hk2⟩, ⟨⟨⟨⟨hk4, hk5⟩, hk6⟩, hk7⟩, hk8⟩⟩ := hk
  set m1 := djangoVersion st.1 line with hm1
  set ml := djangoSuffix m1 line with hml
  have hsnd : ml.2 = (djangoSuffix [] line).2 := by
    rw [hml]
    exact djangoSuffix_snd_indep m1 line
  rw [← hsnd] at hk4 hk5 hk6 hk7 hk8
  rcases hfc : djangoFailColon (djangoFailEnd (djangoSkipped ml.1 ml.2) ml.2) ml.2 with _ | m3
  · rw [hfc] at hstep
    simp at hstep
  · rw [hfc] at hstep
    simp only [Option.some_bind] at hstep
    rcases hec : djangoErrorColon (djangoErrorEnd m3 ml.2) ml.2 with _ | m5
    · rw [hec] at hstep
      simp at hstep
    · rw [hec] at hstep
      simp only [Option.some_bind, pure, Option.some.injEq] at hstep
      subst hstep
      have hokl : begMatch "ok".toList (pyLstrip ml.2) = false := by
        unfold djangoOkStart at hok
        rw [hsnd]
        exact hok
      show dlookup (djangoOk m5 (djangoPrev st.2 line) ml.2) key = dlookup st.1 key
      rw [djangoOk_pres _ _ _ key hokl]
      rw [djangoErrorColon_pres _ _ _ _ hec hk8]
      rw [djangoErrorEnd_pres _ _ _ hk7]
      rw [djangoFailColon_pres _ _ _ _ hfc hk6]
      rw [djangoFailEnd_pres _ _ _ hk5]
      rw [djangoSkipped_pres _ _ _ hk4]
      rw [hml]
      rw [djangoSuffix_pres _ _ _ hk2]
      rw [hm1]
      exact djangoVersion_pres _ _ _ hk1

theorem djangoStep_prev (st st' : Dict × Option Str) (l : Str)
    (hstep : djangoStep st l = some st') :
    st'.2 = djangoPrev st.2 (pyStrip l) := by
  rw [djangoStep_eq] at hstep
  set line := pyStrip l with hline
  set m1 := djangoVersion st.1 line with hm1
  set ml := djangoSuffix m1 line with hml
  rcases hfc : djangoFailColon (djangoFailEnd (djangoSkipped ml.1 ml.2) ml.2) ml.2 with _ | m3
  · rw [hfc] at hstep
    simp at hstep
  · rw [hfc] at hstep
    simp only [Option.some_bind] at hstep
    rcases hec : djangoErrorColon (djangoErrorEnd m3 ml.2) ml.2 with _ | m5
    · rw [hec] at hstep
      simp at hstep
    · rw [hec] at hstep
      simp only [Option.some_bind, pure, Option.some.injEq] at hstep
      subst hstep
      rfl

theorem djangoStep_pass_stable (st st' : Dict × Option Str) (l key : Str)
    (hstep : djangoStep st l = some st')
    (hk : key ∉ djangoNonPassKeys l)
    (h : dlookup st.1 key = some TestStatus.PASSED.value) :
    dlookup st'.1 key = some TestStatus.PASSED.value := by
  unfold djangoNonPassKeys at hk
  simp only [List.mem_append, not_or] at hk
  rw [djangoStep_eq] at hstep
  set line := pyStrip l with hline
  obtain ⟨⟨⟨⟨hk4, hk5⟩, hk6⟩, hk7⟩, hk8⟩ := hk
  set m1 := djangoVersion st.1 line with hm1
  set ml := djangoSuffix m1 line with hml
  have hsnd : ml.2 = (djangoSuffix [] line).2 := by
    rw [hml]
    exact djangoSuffix_snd_indep m1 line
  rw [← hsnd] at hk4 hk5 hk6 hk7 hk8
  rcases hfc : djangoFailColon (djangoFailEnd (djangoSkipped ml.1 ml.2) ml.2) ml.2 with _ | m3
  · rw [hfc] at hstep
    simp at hstep
  · rw [hfc] at hstep
    simp only [Option.some_bind] at hstep
    rcases hec : djangoErrorColon (djangoErrorEnd m3 ml.2) ml.2 with _ | m5
    · rw [hec] at hstep
      simp at hstep
    · rw [hec] at hstep
      simp only [Option.some_bind, pure, Option.some.injEq] at hstep
      subst hstep
      show dlookup (djangoOk m5 (djangoPrev st.2 line) ml.2) key
        = some TestStatus.PASSED.value
      apply djangoOk_stable
      rw [djangoErrorColon_pres _ _ _ _ hec hk8]
      rw [djangoErrorEnd_pres _ _ _ hk7]
      rw [djangoFailColon_pres _ _ _ _ hfc hk6]
      rw [djangoFailEnd_pres _ _ _ hk5]
      rw [djangoSkipped_pres _ _ _ hk4]
      rw [hml]
      apply djangoSuffix_stable
      rw [hm1]
      exact djangoVersion_stable _ _ _ h

theorem optSomeBind {α β : Type} (a : α) (f : α → Option β) : (some a >>= f) = f a := rfl

theorem optNoneBind {α β : Type} (f : α → Option β) : ((none : Option α) >>= f) = none := rfl

theorem djangoStep_err_line (st : Dict × Option Str) :
    djangoStep st "test_x ... ERROR".toList
      = some (dinsert st.1 "test_x".toList TestStatus.ERROR.value, some "test_x".toList) := rfl

theorem djangoStep_ok_line (m : Dict) (pt : Str) :
    djangoStep (m, some pt) "ok".toList
      = some (dinsert m pt TestStatus.PASSED.value, some pt) := rfl

theorem foldlM_opt_append {σ α : Type} (f : σ → α → Option σ) :
    ∀ (l₁ l₂ : List α) (s : σ),
    List.foldlM f s (l₁ ++ l₂)
      = (List.foldlM f s l₁).bind (fun s2 => List.foldlM f s2 l₂) := by
  intro l₁
  induction l₁ with
  | nil =>
    intro l₂ s
    rfl
  | cons a rest ih =>
    intro l₂ s
    simp only [List.cons_append, List.foldlM_cons]
    rcases hfa : f s a with _ | s1
    · rw [optNoneBind, optNoneBind]
      rfl
    · rw [optSomeBind, optSomeBind, ih]

theorem django_fold_pres (post : List Str) :
    ∀ (st st' : Dict × Option Str) (key : Str),
    List.foldlM djangoStep st post = some st' →
    (∀ l ∈ post, key ∉ djangoLineKeys l ∧ djangoOkStart l = false) →
    dlookup st'.1 key = dlookup st.1 key := by
  induction post with
  | nil =>
    intro st st' key hf _
    simp only [List.foldlM_nil] at hf
    cases hf
    rfl
  | cons l rest ih =>
    intro st st' key hf hp
    simp only [List.foldlM_cons] at hf
    rcases hstep : djangoStep st l with _ | st1
    · rw [hstep, optNoneBind] at hf
      cases hf
    · rw [hstep, optSomeBind] at hf
      rw [ih st1 st' key hf (fun x hx => hp x (List.mem_cons_of_mem _ hx))]
      exact djangoStep_pres st st1 l key hstep (hp l (List.mem_cons_self _ _)).1
        (hp l (List.mem_cons_self _ _)).2

theorem django_fold_pass_stable (post : List Str) :
    ∀ (st st' : Dict × Option Str) (key : Str),
    List.foldlM djangoStep st post = some st' →
    (∀ l ∈ post, key ∉ djangoNonPassKeys l) →
    dlookup st.1 key = some TestStatus.PASSED.value →
    dlookup st'.1 key = some TestStatus.PASSED.value := by
  induction post with
  | nil =>
    intro st st' key hf _ h
    simp only [List.foldlM_nil] at hf
    cases hf
    exact h
  | cons l rest ih =>
    intro st st' key hf hp h
    simp only [List.foldlM_cons] at hf
    rcases hstep : djangoStep st l with _ | st1
    · rw [hstep, optNoneBind] at hf
      cases hf
    · rw [hstep, optSomeBind] at hf
      exact ih st1 st' key hf (fun x hx => hp x (List.mem_cons_of_mem _ hx))
        (djangoStep_pass_stable st st1 l key hstep (hp l (List.mem_cons_self _ _)) h)

theorem django_fold_prev (mid : List Str) :
    ∀ (st st' : Dict × Option Str),
    List.foldlM djangoStep st mid = some st' →
    (∀ l ∈ mid, pyContainsSub (pyStrip l) " ... ".toList = false) →
    st'.2 = st.2 := by
  induction mid with
  | nil =>
    intro st st' hf _
    simp only [List.foldlM_nil] at hf
    cases hf
    rfl
  | cons l rest ih =>
    intro st st' hf hp
    simp only [List.foldlM_cons] at hf
    rcases hstep : djangoStep st l with _ | st1
    · rw [hstep, optNoneBind] at hf
      cases hf
    · rw [hstep, optSomeBind] at hf
      rw [ih st1 st' hf (fun x hx => hp x (List.mem_cons_of_mem _ hx))]
      rw [djangoStep_prev st st1 l hstep]
      unfold djangoPrev
      rw [if_neg (fun hc =>
        Bool.noConfusion ((hp l (List.mem_cons_self _ _)).symm.trans hc))]

theorem noise_fold_pres (names : List Str) :
    ∀ (m : Dict) (key : Str), key ∉ names →
    dlookup (names.foldl (fun d n => dinsert d n TestStatus.PASSED.value) m) key
      = dlookup m key := by
  induction names with
  | nil => intro m key _; rfl
  | cons n rest ih =>
    intro m key hk
    simp only [List.foldl_cons]
    rw [ih _ _ (fun hx => hk (List.mem_cons_of_mem _ hx))]
    exact dlookup_dinsert_ne _ _ _ _
      (fun he => hk (List.mem_cons.mpr (Or.inl he.symm)))

theorem noise_fold_stable (names : List Str) :
    ∀ (m : Dict) (key : Str), dlookup m key = some TestStatus.PASSED.value →
    dlookup (names.foldl (fun d n => dinsert d n TestStatus.PASSED.value) m) key
      = some TestStatus.PASSED.value := by
  induction names with
  | nil => intro m key h; exact h
  | cons n rest ih =>
    intro m key h
    simp only [List.foldl_cons]
    exact ih _ _ (dlookup_dinsert_stable _ _ _ _ h)

theorem parse_log_django_eq (log : Str) :
    parse_log_django log = (List.foldlM djangoStep ([], none) (splitNl log)).bind
      (fun st => some ((djangoNoise log).foldl
        (fun d n => dinsert d n TestStatus.PASSED.value) st.1)) := rfl

/-- C6: for parse_log_django, (a) the one-line log
"test_thing (module.Case) ... ok" yields the singleton mapping of that
name to Passed; (b) amended: a log with the line "test_x ... ERROR" maps
test_x to Error provided no later line writes test_x again or starts with
ok, test_x is not a noise-pattern capture, and the parse does not raise;
(c) amended: a line "ok" after a line with the " ... " infix finalizes
the pending name as Passed provided the lines between them have no
" ... " infix, no later line writes a non-Passed status to that name,
and the parse does not raise. The unamended (b) and (c) are refuted by
C6_django_counterexample: a later line for the same name overwrites. -/
theorem C6_django_behaviours :
    (parse_log_django "test_thing (module.Case) ... ok".toList
       = some [("test_thing (module.Case)".toList, TestStatus.PASSED.value)])
    ∧ (∀ (log : Str) (pre post : List Str) (d : Dict),
        splitNl log = pre ++ "test_x ... ERROR".toList :: post →
        (∀ l ∈ post, "test_x".toList ∉ djangoLineKeys l ∧ djangoOkStart l = false) →
        "test_x".toList ∉ djangoNoise log →
        parse_log_django log = some d →
        dlookup d "test_x".toList = some TestStatus.ERROR.value)
    ∧ (∀ (log : Str) (pre mid post : List Str) (l1 name : Str) (d : Dict),
        splitNl log = pre ++ l1 :: (mid ++ "ok".toList :: post) →
        djangoPrev none (pyStrip l1) = some name →
        (∀ l ∈ mid, pyContainsSub (pyStrip l) " ... ".toList = false) →
        (∀ l ∈ post, name ∉ djangoNonPassKeys l) →
        parse_log_django log = some d →
        dlookup d name = some TestStatus.PASSED.value) := by
  refine ⟨rfl, ?_, ?_⟩
  · intro log pre post d hsplit hpost hnoise hparse
    rw [parse_log_django_eq] at hparse
    rcases hfold : List.foldlM djangoStep ([], none) (splitNl log) with _ | stf
    · rw [hfold] at hparse
      exact Option.noConfusion hparse
    · rw [hfold] at hparse
      simp only [Option.some_bind, Option.some.injEq] at hparse
      subst hparse
      rw [noise_fold_pres (djangoNoise log) stf.1 _ hnoise]
      rw [hsplit, foldlM_opt_append] at hfold
      rcases hf1 : List.foldlM djangoStep ([], none) pre with _ | st1
      · rw [hf1] at hfold
        exact Option.noConfusion hfold
      · rw [hf1] at hfold
        simp only [Option.some_bind] at hfold
        rw [List.foldlM_cons, djangoStep_err_line] at hfold
        simp only [optSomeBind] at hfold
        rw [django_fold_pres post _ stf _ hfold hpost]
        exact dlookup_dinsert_self _ _ _
  · intro log pre mid post l1 name d hsplit hname hmid hpost hparse
    rw [parse_log_django_eq] at hparse
    rcases hfold : List.foldlM djangoStep ([], none) (splitNl log) with _ | stf
    · rw [hfold] at hparse
      exact Option.noConfusion hparse
    · rw [hfold] at hparse
      simp only [Option.some_bind, Option.some.injEq] at hparse
      subst hparse
      rw [hsplit, foldlM_opt_append] at hfold
      rcases hf1 : List.foldlM djangoStep ([], none) pre with _ | st1
      · rw [hf1] at hfold
        exact Option.noConfusion hfold
      · rw [hf1] at hfold
        simp only [Option.some_bind] at hfold
        rw [List.foldlM_cons] at hfold
        rcases hs2 : djangoStep st1 l1 with _ | st2
        · rw [hs2] at hfold
          exact Option.noConfusion hfold
        · rw [hs2] at hfold
          simp only [optSomeBind] at hfold
          rw [foldlM_opt_append] at hfold
          rcases hf3 : List.foldlM djangoStep st2 mid with _ | st3
          · rw [hf3] at hfold
            exact Option.noConfusion hfold
          · rw [hf3] at hfold
            simp only [Option.some_bind] at hfold
            rw [List.foldlM_cons] at hfold
            have hprev2 : st2.2 = some name := by
              rw [djangoStep_prev st1 st2 l1 hs2]
              unfold djangoPrev at hname ⊢
              by_cases hc : pyContainsSub (pyStrip l1) " ... ".toList = true
              · rw [if_pos hc] at hname ⊢
                exact hname
              · rw [if_neg hc] at hname
                exact Option.noConfusion hname
            have hprev3 : st3.2 = some name := by
              rw [django_fold_prev mid st2 st3 hf3 hmid, hprev2]
            have hst3 : st3 = (st3.1, some name) := by
              rw [← hprev3]
            rw [hst3, djangoStep_ok_line] at hfold
            simp only [optSomeBind] at hfold
            exact noise_fold_stable (djangoNoise log) stf.1 name
              (django_fold_pass_stable post _ stf name hfold hpost
                (dlookup_dinsert_self _ _ _))

/-- C6 witness: the amended parts applied at concrete logs. Part (b) at
"test_x ... ERROR\nother line" (the second line writes no key and does
not start with ok), part (c) at "t ... x\nok\nz" (nothing between the
pending line and the ok line; the trailing line writes nothing). -/
theorem C6_django_behaviours_witness :
    dlookup [("test_x".toList, TestStatus.ERROR.value)] "test_x".toList
        = some TestStatus.ERROR.value
    ∧ dlookup [("t".toList, TestStatus.PASSED.value)] "t".toList
        = some TestStatus.PASSED.value :=
  ⟨C6_django_behaviours.2.1 "test_x ... ERROR\nother line".toList []
      ["other line".toList] _ (by decide) (by decide) (by decide) (by decide),
   C6_django_behaviours.2.2 "t ... x\nok\nz".toList [] [] ["z".toList]
      "t ... x".toList "t".toList _ (by decide) (by decide) (by decide)
      (by decide) (by decide)⟩

/-- C6 counterexample to the unamended claim: the log
"test_x ... ERROR\ntest_x ... ok" contains the line "test_x ... ERROR",
yet the parser maps test_x to Passed, because the later line for the
same name overwrites the entry. -/
theorem C6_django_counterexample :
    parse_log_django "test_x ... ERROR\ntest_x ... ok".toList
        = some [("test_x".toList, TestStatus.PASSED.value)]
    ∧ TestStatus.PASSED.value ≠ TestStatus.ERROR.value :=
  ⟨by decide, by decide⟩

/-! ### Claim C7: idempotence of the normalize_log operations -/

theorem hexRunOk_zero (t : Str) : hexRunOk t 0 = boundaryAfter t := by
  simp [hexRunOk]

theorem hexRunOk_cons_succ (c : Char) (t : Str) (n : Nat) :
    hexRunOk (c :: t) (n + 1) = (hexDigit c && hexRunOk t n) := by
  unfold hexRunOk
  rw [List.take_succ_cons, List.drop_succ_cons]
  cases hd : hexDigit c <;>
    cases hb : boundaryAfter (List.drop n t) <;>
      simp [hd, hb, Nat.succ_inj]

theorem hexDigit_word (c : Char) (h : hexDigit c = true) : isWordChar c = true := by
  unfold hexDigit at h
  unfold isWordChar
  simp only [Bool.or_eq_true, Bool.and_eq_true, decide_eq_true_eq] at h ⊢
  rcases h with (h | ⟨h1, h2⟩) | ⟨h1, h2⟩
  · exact Or.inl (Or.inr h)
  · refine Or.inl (Or.inl ?_)
    rw [Char.isAlpha]
    simp only [Bool.or_eq_true]
    left
    rw [Char.isUpper]
    simp only [Bool.and_eq_true, decide_eq_true_eq]
    rw [Char.le_def] at h1 h2
    rw [show Char.val 'A' = 65 from rfl] at h1
    rw [show Char.val 'F' = 70 from rfl] at h2
    exact ⟨h1, UInt32.le_trans h2 (by decide)⟩
  · refine Or.inl (Or.inl ?_)
    rw [Char.isAlpha]
    simp only [Bool.or_eq_true]
    right
    rw [Char.isLower]
    simp only [Bool.and_eq_true, decide_eq_true_eq]
    rw [Char.le_def] at h1 h2
    rw [show Char.val 'a' = 97 from rfl] at h1
    rw [show Char.val 'f' = 102 from rfl] at h2
    exact ⟨h1, UInt32.le_trans h2 (by decide)⟩

theorem memMatchLen_ne0 (c : Char) (t : Str) (h : ¬ c = '0') :
    memMatchLen (c :: t) = none := by
  unfold memMatchLen
  split
  · next heq =>
    injection heq with h1 _
    exact absurd h1 h
  · rfl

theorem memMatchLen_0x (t : Str) :
    memMatchLen ('0' :: 'x' :: t)
      = (if hexRunOk t 8 then some 10 else if hexRunOk t 16 then some 18 else none) := rfl

theorem memMatchLen_some_facts (s : Str) (n : Nat) (h : memMatchLen s = some n) :
    (n = 10 ∨ n = 18) ∧ boundaryAfter (List.drop n s) = true ∧ 1 ≤ n := by
  unfold memMatchLen at h
  split at h
  · next t =>
    split_ifs at h with h8 h16
    · cases h
      refine ⟨Or.inl rfl, ?_, by omega⟩
      unfold hexRunOk at h8
      simp only [Bool.and_eq_true] at h8
      exact h8.2
    · cases h
      refine ⟨Or.inr rfl, ?_, by omega⟩
      unfold hexRunOk at h16
      simp only [Bool.and_eq_true] at h16
      exact h16.2
  · exact absurd h (by simp)

theorem maskSubF_nil (f : Nat) : maskSubF f [] = [] := by
  cases f <;> rfl

theorem maskSubF_cons_none (f : Nat) (c : Char) (rest : Str)
    (h : memMatchLen (c :: rest) = none) :
    maskSubF (f + 1) (c :: rest) = c :: maskSubF f rest := by
  simp only [maskSubF, h]

theorem maskSubF_cons_some (f : Nat) (c : Char) (rest : Str) (n : Nat)
    (h : memMatchLen (c :: rest) = some n) :
    maskSubF (f + 1) (c :: rest) = REPL ++ maskSubF f (List.drop n (c :: rest)) := by
  simp only [maskSubF, h]

theorem hexRunOk_repl (z : Str) (n : Nat) : hexRunOk (REPL ++ z) n = false := by
  have hr : REPL ++ z
      = '0' :: 'x' :: 'X' :: 'X' :: 'X' :: 'X' :: 'X' :: 'X' :: 'X' :: 'X' :: 'X' :: z := rfl
  match n with
  | 0 =>
    rw [hr, hexRunOk_zero]
    exact (show (!isWordChar '0') = false by decide)
  | 1 =>
    rw [hr, hexRunOk_cons_succ, hexRunOk_zero]
    exact (show (hexDigit '0' && !isWordChar 'x') = false by decide)
  | n + 2 =>
    rw [hr, hexRunOk_cons_succ, hexRunOk_cons_succ]
    rw [show hexDigit 'x' = false from by decide]
    simp

theorem hexRun8_X (w : Str) :
    hexRunOk ('X' :: 'X' :: 'X' :: 'X' :: 'X' :: 'X' :: 'X' :: 'X' :: 'X' :: w) 8 = false := by
  rw [show (8 : Nat) = 7 + 1 from rfl, hexRunOk_cons_succ]
  rw [show hexDigit 'X' = false from by decide]
  simp

theorem hexRun16_X (w : Str) :
    hexRunOk ('X' :: 'X' :: 'X' :: 'X' :: 'X' :: 'X' :: 'X' :: 'X' :: 'X' :: w) 16
      = false := by
  rw [show (16 : Nat) = 15 + 1 from rfl, hexRunOk_cons_succ]
  rw [show hexDigit 'X' = false from by decide]
  simp

theorem hexRunOk_mask : ∀ (f : Nat) (r : Str) (n : Nat),
    hexRunOk r n = false → hexRunOk (maskSubF f r) n = false := by
  intro f
  induction f with
  | zero => intro r n h; exact h
  | succ f ih =>
    intro r n h
    cases r with
    | nil => exact h
    | cons c rest =>
      cases hm : memMatchLen (c :: rest) with
      | some nn =>
        rw [maskSubF_cons_some f c rest nn hm]
        exact hexRunOk_repl _ n
      | none =>
        rw [maskSubF_cons_none f c rest hm]
        cases n with
        | zero =>
          rw [hexRunOk_zero] at h ⊢
          exact h
        | succ n =>
          rw [hexRunOk_cons_succ] at h ⊢
          cases hd : hexDigit c with
          | false => simp [hd]
          | true =>
            rw [hd, Bool.true_and] at h
            rw [Bool.true_and]
            exact ih rest n h

theorem maskSubF_cons_of_ne : ∀ (f : Nat) (rest : Str) (c : Char) (t : Str),
    ¬ c = '0' → maskSubF f rest = c :: t →
    ∃ (g : Nat) (t0 : Str), rest = c :: t0 ∧ t = maskSubF g t0 := by
  intro f
  cases f with
  | zero =>
    intro rest c t _ h
    exact ⟨0, t, h, rfl⟩
  | succ f =>
    intro rest c t hc h
    cases rest with
    | nil => exact absurd h (by rw [maskSubF_nil]; intro hx; cases hx)
    | cons d r2 =>
      cases hm : memMatchLen (d :: r2) with
      | none =>
        rw [maskSubF_cons_none f d r2 hm] at h
        injection h with h1 h2
        exact ⟨f, r2, by rw [h1], h2.symm⟩
      | some n =>
        rw [maskSubF_cons_some f d r2 n hm] at h
        have h0 : '0' :: ("xXXXXXXXXX".toList ++ maskSubF f (List.drop n (d :: r2)))
            = c :: t := h
        injection h0 with h1 _
        exact absurd h1.symm hc

theorem memMatchLen_none_mask (f : Nat) (c : Char) (rest : Str)
    (h : memMatchLen (c :: rest) = none) :
    memMatchLen (c :: maskSubF f rest) = none := by
  unfold memMatchLen
  split
  · next t' heq =>
    injection heq with hc htail
    obtain ⟨g, t0, hr0, ht0⟩ := maskSubF_cons_of_ne f rest 'x' t' (by decide) htail
    rw [hc, hr0] at h
    rw [memMatchLen_0x] at h
    split_ifs at h with h8 h16
    rw [ht0, hexRunOk_mask g t0 8 (by simpa using h8),
      hexRunOk_mask g t0 16 (by simpa using h16)]
    simp
  · rfl

theorem nm_cons (c : Char) (t : Str) (h1 : memMatchLen (c :: t) = none)
    (h2 : ∀ k, memMatchLen (List.drop k t) = none) :
    ∀ k, memMatchLen (List.drop k (c :: t)) = none := by
  intro k
  cases k with
  | zero => exact h1
  | succ k =>
    rw [List.drop_succ_cons]
    exact h2 k

theorem nm_nil : ∀ k, memMatchLen (List.drop k ([] : Str)) = none := by
  intro k
  rw [List.drop_nil]
  rfl

theorem mask_noMatch : ∀ (f : Nat) (r : Str), r.length ≤ f →
    ∀ k, memMatchLen (List.drop k (maskSubF f r)) = none := by
  intro f
  induction f with
  | zero =>
    intro r hl
    have : r = [] := List.length_eq_zero.mp (Nat.le_zero.mp hl)
    subst this
    exact nm_nil
  | succ f ih =>
    intro r hl
    cases r with
    | nil => exact nm_nil
    | cons c rest =>
      cases hm : memMatchLen (c :: rest) with
      | none =>
        rw [maskSubF_cons_none f c rest hm]
        refine nm_cons c _ (memMatchLen_none_mask f c rest hm) (ih rest ?_)
        simp [List.length_cons] at hl
        omega
      | some n =>
        rw [maskSubF_cons_some f c rest n hm]
        obtain ⟨hn, hb, hpos⟩ := memMatchLen_some_facts _ _ hm
        have hlen : (List.drop n (c :: rest)).length ≤ f := by
          rw [List.length_drop]
          simp [List.length_cons] at hl ⊢
          omega
        have m0 := ih (List.drop n (c :: rest)) hlen
        have hr : REPL ++ maskSubF f (List.drop n (c :: rest))
            = '0' :: 'x' :: 'X' :: 'X' :: 'X' :: 'X' :: 'X' :: 'X' :: 'X' :: 'X' :: 'X'
              :: maskSubF f (List.drop n (c :: rest)) := rfl
        rw [hr]
        have m1 := nm_cons 'X' _ (memMatchLen_ne0 _ _ (by decide)) m0
        have m2 := nm_cons 'X' _ (memMatchLen_ne0 _ _ (by decide)) m1
        have m3 := nm_cons 'X' _ (memMatchLen_ne0 _ _ (by decide)) m2
        have m4 := nm_cons 'X' _ (memMatchLen_ne0 _ _ (by decide)) m3
        have m5 := nm_cons 'X' _ (memMatchLen_ne0 _ _ (by decide)) m4
        have m6 := nm_cons 'X' _ (memMatchLen_ne0 _ _ (by decide)) m5
        have m7 := nm_cons 'X' _ (memMatchLen_ne0 _ _ (by decide)) m6
        have m8 := nm_cons 'X' _ (memMatchLen_ne0 _ _ (by decide)) m7
        have m9 := nm_cons 'X' _ (memMatchLen_ne0 _ _ (by decide)) m8
        have mx := nm_cons 'x' _ (memMatchLen_ne0 _ _ (by decide)) m9
        refine nm_cons '0' _ ?_ mx
        rw [memMatchLen_0x, hexRun8_X, hexRun16_X]
        simp

theorem maskSubF_id : ∀ (f : Nat) (r : Str),
    (∀ k, memMatchLen (List.drop k r) = none) → maskSubF f r = r := by
  intro f
  induction f with
  | zero => intro r _; rfl
  | succ f ih =>
    intro r h
    cases r with
    | nil => rfl
    | cons c rest =>
      have h0 : memMatchLen (c :: rest) = none := h 0
      rw [maskSubF_cons_none f c rest h0, ih rest (fun k => by
        have := h (k + 1)
        rwa [List.drop_succ_cons] at this)]

theorem maskSub_idem (s : Str) : maskSub (maskSub s) = maskSub s := by
  unfold maskSub
  exact maskSubF_id _ _ (mask_noMatch s.length s (Nat.le_refl _))

theorem charAt_drop (t : Str) (k r : Nat) :
    charAt (List.drop k t) r = charAt t (k + r) := by
  unfold charAt
  rw [List.drop_drop]

theorem charAt_cons_succ (c : Char) (t : Str) (r : Nat) :
    charAt (c :: t) (r + 1) = charAt t r := rfl

theorem charAt_append_left : ∀ (u : Str) (r : Nat), r < u.length →
    ∀ v, charAt (u ++ v) r = charAt u r := by
  intro u
  induction u with
  | nil => intro r hr; simp at hr
  | cons c cs ih =>
    intro r hr v
    cases r with
    | zero => rfl
    | succ r =>
      rw [List.cons_append, charAt_cons_succ, charAt_cons_succ]
      exact ih r (by simp [List.length_cons] at hr; omega) v

theorem charAt_mem : ∀ (t : Str) (r : Nat) (c : Char), charAt t r = some c → c ∈ t := by
  intro t
  induction t with
  | nil => intro r c h; rw [show charAt [] r = none from by unfold charAt; rw [List.drop_nil]; rfl] at h; cases h
  | cons d ds ih =>
    intro r c h
    cases r with
    | zero =>
      rw [show charAt (d :: ds) 0 = some d from rfl] at h
      injection h with h
      rw [← h]
      exact List.mem_cons_self _ _
    | succ r =>
      rw [charAt_cons_succ] at h
      exact List.mem_cons_of_mem _ (ih r c h)

theorem begMatch_length_le (p t : Str) (h : begMatch p t = true) : p.length ≤ t.length := by
  obtain ⟨r, rfl⟩ := (begMatch_iff_exists p t).mp h
  simp

theorem begMatch_charAt (p t : Str) (h : begMatch p t = true) (r : Nat) (hr : r < p.length) :
    charAt t r = charAt p r := by
  obtain ⟨z, rfl⟩ := (begMatch_iff_exists p t).mp h
  exact charAt_append_left p r hr z

theorem begMatch_of_take (p t : Str) (m : Nat) (h : begMatch p (List.take m t) = true) :
    begMatch p t = true := by
  obtain ⟨z, hz⟩ := (begMatch_iff_exists p _).mp h
  have ht : t = p ++ (z ++ List.drop m t) := by
    conv_lhs => rw [← List.take_append_drop m t]
    rw [hz, List.append_assoc]
  rw [ht]
  exact begMatch_append_self _ _

theorem take_append_le : ∀ (u : Str) (n : Nat), n ≤ u.length →
    ∀ v, List.take n (u ++ v) = List.take n u := by
  intro u
  induction u with
  | nil =>
    intro n hn v
    rw [Nat.le_zero.mp hn]
    rfl
  | cons c cs ih =>
    intro n hn v
    cases n with
    | zero => rfl
    | succ n =>
      rw [List.cons_append, List.take_succ_cons, List.take_succ_cons,
        ih n (by simp [List.length_cons] at hn; omega) v]

theorem drop_append_le : ∀ (u : Str) (n : Nat), n ≤ u.length →
    ∀ v, List.drop n (u ++ v) = List.drop n u ++ v := by
  intro u
  induction u with
  | nil =>
    intro n hn v
    rw [Nat.le_zero.mp hn]
    rfl
  | cons c cs ih =>
    intro n hn v
    cases n with
    | zero => rfl
    | succ n =>
      rw [List.cons_append, List.drop_succ_cons, List.drop_succ_cons,
        ih n (by simp [List.length_cons] at hn; omega) v]

theorem drop_append_ge : ∀ (u : Str) (n : Nat), u.length ≤ n →
    ∀ v, List.drop n (u ++ v) = List.drop (n - u.length) v := by
  intro u
  induction u with
  | nil =>
    intro n _ v
    rfl
  | cons c cs ih =>
    intro n hn v
    cases n with
    | zero => simp [List.length_cons] at hn
    | succ n =>
      rw [List.cons_append, List.drop_succ_cons,
        ih n (by simp [List.length_cons] at hn; omega) v]
      simp [List.length_cons]

theorem begMatch_append_elim (p u v : Str) (h : begMatch p (u ++ v) = true)
    (hl : p.length ≤ u.length) : begMatch p u = true := by
  obtain ⟨z, hz⟩ := (begMatch_iff_exists p _).mp h
  have hu : List.take p.length u = p := by
    have h2 := congrArg (List.take p.length) hz
    rw [take_append_le u p.length hl v, List.take_left] at h2
    exact h2
  have : u = p ++ List.drop p.length u := by
    conv_lhs => rw [← List.take_append_drop p.length u]
    rw [hu]
  rw [this]
  exact begMatch_append_self _ _

theorem takeWhile_append_all (p : Char → Bool) : ∀ (u v : Str), (∀ c ∈ u, p c = true) →
    List.takeWhile p (u ++ v) = u ++ List.takeWhile p v := by
  intro u
  induction u with
  | nil => intro v _; rfl
  | cons c cs ih =>
    intro v h
    rw [List.cons_append, List.takeWhile_cons, if_pos (h c (List.mem_cons_self _ _)),
      ih v (fun x hx => h x (List.mem_cons_of_mem _ hx))]
    rfl

theorem takeWhile_charAt (p : Char → Bool) : ∀ (t : Str) (r : Nat),
    r < (List.takeWhile p t).length → ∃ c, charAt t r = some c ∧ p c = true := by
  intro t
  induction t with
  | nil => intro r hr; simp [List.takeWhile] at hr
  | cons c cs ih =>
    intro r hr
    cases hp : p c with
    | false =>
      rw [List.takeWhile_cons, if_neg (by simp [hp])] at hr
      simp at hr
    | true =>
      rw [List.takeWhile_cons, if_pos hp] at hr
      cases r with
      | zero => exact ⟨c, rfl, hp⟩
      | succ r =>
        rw [charAt_cons_succ]
        exact ih r (by simp [List.length_cons] at hr; omega)

theorem sliceEq_drop (s : Str) (i k : Nat) (pat : Str) :
    sliceEq (List.drop i s) k pat = sliceEq s (i + k) pat := by
  unfold sliceEq
  rw [List.drop_drop]

theorem sliceEq_all_false_of_not_contains (w pat : Str) (h : pyContainsSub w pat = false) :
    ∀ t, sliceEq w t pat = false := by
  intro t
  unfold pyContainsSub at h
  rcases hf : pyFindSub w pat with _ | i
  · unfold pyFindSub at hf
    have hp : pat ≠ [] := by
      intro he
      subst he
      have := firstFrom_none _ _ _ hf 0 (Nat.le_refl 0 |>.trans (Nat.zero_le 0)) (by omega)
      simp [sliceEq, begMatch] at this
    by_cases ht : t < w.length + 1
    · exact firstFrom_none _ _ _ hf t (Nat.zero_le _) ht
    · unfold sliceEq
      rw [List.drop_eq_nil_of_le (by omega)]
      cases pat with
      | nil => exact absurd rfl hp
      | cons c cs => rfl
  · rw [hf] at h
    cases h

theorem not_contains_of_all_false (w pat : Str) (h : ∀ t, sliceEq w t pat = false) :
    pyContainsSub w pat = false := by
  unfold pyContainsSub pyFindSub
  rcases hf : firstFrom (fun i => sliceEq w i pat) 0 (w.length + 1) with _ | i
  · rfl
  · obtain ⟨_, _, hp, _⟩ := firstFrom_some _ _ _ _ hf
    rw [h i] at hp
    cases hp

theorem eqRunAt_ge_of_sep (s : Str) (q0 : Nat) (h : sliceEq s q0 SEP = true) :
    28 ≤ eqRunAt s (q0 + 52) := by
  obtain ⟨z, hz⟩ := (begMatch_iff_exists SEP (List.drop q0 s)).mp h
  unfold eqRunAt
  rw [show List.drop (q0 + 52) s = List.drop 52 (List.drop q0 s) from by
    rw [List.drop_drop]]
  rw [hz, drop_append_le SEP 52 (by decide) z,
    takeWhile_append_all _ (List.drop 52 SEP) z (by decide), List.length_append]
  have h28 : (List.drop 52 SEP).length = 28 := by decide
  omega

theorem isTermAt_head (s : Str) (j : Nat) (h : isTermAt s j = true) :
    charAt s j = some ' ' := by
  unfold isTermAt at h
  simp only [Bool.and_eq_true] at h
  have h2 := begMatch_charAt (" in ".toList) (List.drop j s) h.1 0 (by decide)
  rw [charAt_drop, Nat.add_zero] at h2
  rw [h2]
  rfl

theorem findBlocksF_succ (f : Nat) (s : Str) (q : Nat) :
    findBlocksF (f + 1) s q
      = (match firstFrom (fun i => sliceEq s i SEP) q (s.length + 1) with
        | none => []
        | some i =>
          match firstFrom (fun p => tailAt s p) (i + SEP.length) s.length with
          | none => findBlocksF f s (i + 1)
          | some p =>
            match firstFrom (isTermAt s) (p + eqRunAt s p) s.length with
            | none => []
            | some j => strSlice s (i + SEP.length) p :: findBlocksF f s (termEnd s j)) := rfl

theorem findBlocksF_step_none (f : Nat) (s : Str) (q : Nat)
    (hi : firstFrom (fun i => sliceEq s i SEP) q (s.length + 1) = none) :
    findBlocksF (f + 1) s q = [] := by
  rw [findBlocksF_succ, hi]

theorem findBlocksF_step_retry (f : Nat) (s : Str) (q i : Nat)
    (hi : firstFrom (fun i => sliceEq s i SEP) q (s.length + 1) = some i)
    (hp : firstFrom (fun p => tailAt s p) (i + SEP.length) s.length = none) :
    findBlocksF (f + 1) s q = findBlocksF f s (i + 1) := by
  rw [findBlocksF_succ, hi]
  show (match firstFrom (fun p => tailAt s p) (i + SEP.length) s.length with
        | none => findBlocksF f s (i + 1)
        | some p =>
          match firstFrom (isTermAt s) (p + eqRunAt s p) s.length with
          | none => []
          | some j => strSlice s (i + SEP.length) p :: findBlocksF f s (termEnd s j))
      = findBlocksF f s (i + 1)
  rw [hp]

theorem findBlocksF_step_noterm (f : Nat) (s : Str) (q i p : Nat)
    (hi : firstFrom (fun i => sliceEq s i SEP) q (s.length + 1) = some i)
    (hp : firstFrom (fun p => tailAt s p) (i + SEP.length) s.length = some p)
    (hj : firstFrom (isTermAt s) (p + eqRunAt s p) s.length = none) :
    findBlocksF (f + 1) s q = [] := by
  rw [findBlocksF_succ, hi]
  show (match firstFrom (fun p => tailAt s p) (i + SEP.length) s.length with
        | none => findBlocksF f s (i + 1)
        | some p =>
          match firstFrom (isTermAt s) (p + eqRunAt s p) s.length with
          | none => []
          | some j => strSlice s (i + SEP.length) p :: findBlocksF f s (termEnd s j))
      = []
  rw [hp]
  show (match firstFrom (isTermAt s) (p + eqRunAt s p) s.length with
        | none => []
        | some j => strSlice s (i + SEP.length) p :: findBlocksF f s (termEnd s j))
      = []
  rw [hj]

theorem findBlocksF_step_emit (f : Nat) (s : Str) (q i p j : Nat)
    (hi : firstFrom (fun i => sliceEq s i SEP) q (s.length + 1) = some i)
    (hp : firstFrom (fun p => tailAt s p) (i + SEP.length) s.length = some p)
    (hj : firstFrom (isTermAt s) (p + eqRunAt s p) s.length = some j) :
    findBlocksF (f + 1) s q
      = strSlice s (i + SEP.length) p :: findBlocksF f s (termEnd s j) := by
  rw [findBlocksF_succ, hi]
  show (match firstFrom (fun p => tailAt s p) (i + SEP.length) s.length with
        | none => findBlocksF f s (i + 1)
        | some p =>
          match firstFrom (isTermAt s) (p + eqRunAt s p) s.length with
          | none => []
          | some j => strSlice s (i + SEP.length) p :: findBlocksF f s (termEnd s j))
      = strSlice s (i + SEP.length) p :: findBlocksF f s (termEnd s j)
  rw [hp]
  show (match firstFrom (isTermAt s) (p + eqRunAt s p) s.length with
        | none => []
        | some j => strSlice s (i + SEP.length) p :: findBlocksF f s (termEnd s j))
      = strSlice s (i + SEP.length) p :: findBlocksF f s (termEnd s j)
  rw [hj]

theorem head_block_no_sep (s : Str) (i p j : Nat)
    (hp : firstFrom (fun m => tailAt s m) (i + SEP.length) s.length = some p)
    (hj : firstFrom (isTermAt s) (p + eqRunAt s p) s.length = some j) :
    pyContainsSub (strSlice s (i + SEP.length) p) SEP = false := by
  obtain ⟨hp1, hp2, hp3, hp4⟩ := firstFrom_some _ _ _ _ hp
  obtain ⟨hj1, hj2, hj3, hj4⟩ := firstFrom_some _ _ _ _ hj
  apply not_contains_of_all_false
  intro t
  cases hx : sliceEq (strSlice s (i + SEP.length) p) t SEP with
  | false => rfl
  | true =>
    exfalso
    set a := i + SEP.length with ha
    have hL : SEP.length = 80 := by decide
    have hblen : (strSlice s a p).length = p - a := by
      unfold strSlice
      rw [List.length_take, List.length_drop]
      omega
    have hlen80 : t + 80 ≤ p - a := by
      have hbm := begMatch_length_le SEP _ hx
      rw [List.length_drop, hblen] at hbm
      omega
    have hq0 : sliceEq s (a + t) SEP = true := by
      have hdt : List.drop t (strSlice s a p)
          = List.take (p - a - t) (List.drop (a + t) s) := by
        unfold strSlice
        rw [List.drop_take, List.drop_drop]
      unfold sliceEq at hx ⊢
      rw [hdt] at hx
      exact begMatch_of_take _ _ _ hx
    have heqrun : 28 ≤ eqRunAt s (a + t + 52) := eqRunAt_ge_of_sep s (a + t) hq0
    have hjp : p ≤ j := le_trans (Nat.le_add_right p _) hj1
    have hje : a + t + 52 + eqRunAt s (a + t + 52) ≤ j := by
      by_contra hlt
      push_neg at hlt
      have hjge : a + t + 52 ≤ j := by omega
      have hr : j - (a + t + 52)
          < (List.takeWhile (fun c => decide (c = '=')) (List.drop (a + t + 52) s)).length := by
        unfold eqRunAt at hlt
        omega
      obtain ⟨c, hc1, hc2⟩ := takeWhile_charAt _ _ _ hr
      rw [charAt_drop, show a + t + 52 + (j - (a + t + 52)) = j from by omega] at hc1
      rw [isTermAt_head s j hj3] at hc1
      injection hc1 with hc1
      simp only [decide_eq_true_eq] at hc2
      rw [← hc1] at hc2
      exact absurd hc2 (by decide)
    have htail : tailAt s (a + t + 52) = true := by
      unfold tailAt
      simp only [Bool.and_eq_true, decide_eq_true_eq]
      exact ⟨by omega, firstFrom_isSome_of _ _ _ j hj3 hje hj2⟩
    have hmin := hp4 (a + t + 52) (by omega) (by omega)
    rw [htail] at hmin
    cases hmin

theorem findBlocksF_no_sep : ∀ (f : Nat) (s : Str) (q : Nat),
    ∀ b ∈ findBlocksF f s q, pyContainsSub b SEP = false := by
  intro f
  induction f with
  | zero =>
    intro s q b hb
    rw [show findBlocksF 0 s q = [] from rfl] at hb
    simp at hb
  | succ f ih =>
    intro s q b hb
    rcases hi : firstFrom (fun i => sliceEq s i SEP) q (s.length + 1) with _ | i
    · rw [findBlocksF_step_none f s q hi] at hb
      simp at hb
    · rcases hp : firstFrom (fun p => tailAt s p) (i + SEP.length) s.length with _ | p
      · rw [findBlocksF_step_retry f s q i hi hp] at hb
        exact ih s (i + 1) b hb
      · rcases hj : firstFrom (isTermAt s) (p + eqRunAt s p) s.length with _ | j
        · rw [findBlocksF_step_noterm f s q i p hi hp hj] at hb
          simp at hb
        · rw [findBlocksF_step_emit f s q i p j hi hp hj] at hb
          simp only [List.mem_cons] at hb
          rcases hb with rfl | hb
          · exact head_block_no_sep s i p j hp hj
          · exact ih s (termEnd s j) b hb

theorem append_step_sep_free (acc b : Str)
    (h1 : ∀ t, sliceEq acc t SEP = false)
    (h2 : acc = [] ∨ ∃ u, acc = u ++ ['\n'])
    (h3 : pyContainsSub b SEP = false) :
    ∀ t, sliceEq (acc ++ b ++ ['\n']) t SEP = false := by
  intro t
  cases hx : sliceEq (acc ++ b ++ ['\n']) t SEP with
  | false => rfl
  | true =>
    exfalso
    rw [List.append_assoc] at hx
    have hL : SEP.length = 80 := by decide
    by_cases hA : t + SEP.length ≤ acc.length
    · have hacc : sliceEq acc t SEP = true := by
        unfold sliceEq at hx ⊢
        rw [drop_append_le acc t (by omega) (b ++ ['\n'])] at hx
        exact begMatch_append_elim SEP _ _ hx (by rw [List.length_drop]; omega)
      rw [h1 t] at hacc
      cases hacc
    · by_cases hB : acc.length ≤ t
      · have hsv : sliceEq (b ++ ['\n']) (t - acc.length) SEP = true := by
          unfold sliceEq at hx ⊢
          rw [drop_append_ge acc t hB (b ++ ['\n'])] at hx
          exact hx
        by_cases hC : (t - acc.length) + SEP.length ≤ b.length
        · have hbocc : sliceEq b (t - acc.length) SEP = true := by
            unfold sliceEq at hsv ⊢
            rw [drop_append_le b (t - acc.length) (by omega) ['\n']] at hsv
            exact begMatch_append_elim SEP _ _ hsv (by rw [List.length_drop]; omega)
          rw [sliceEq_all_false_of_not_contains b SEP h3 (t - acc.length)] at hbocc
          cases hbocc
        · by_cases hD : t - acc.length ≤ b.length
          · have hc := begMatch_charAt SEP (List.drop (t - acc.length) (b ++ ['\n'])) hsv
                (b.length - (t - acc.length)) (by omega)
            rw [charAt_drop,
              show t - acc.length + (b.length - (t - acc.length)) = b.length from by
                omega] at hc
            have hnl : charAt (b ++ ['\n']) b.length = some '\n' := by
              unfold charAt
              rw [drop_append_le b b.length (Nat.le_refl _) ['\n'], List.drop_length]
              rfl
            rw [hnl] at hc
            exact absurd (charAt_mem _ _ _ hc.symm) (by decide)
          · have hlen := begMatch_length_le SEP _ hsv
            rw [List.length_drop, List.length_append] at hlen
            simp at hlen
            omega
      · rcases h2 with rfl | ⟨u, rfl⟩
        · exact hB (by simp)
        · have hAlen : (u ++ ['\n']).length = u.length + 1 := by
            rw [List.length_append]
            rfl
          have hc := begMatch_charAt SEP
              (List.drop t ((u ++ ['\n']) ++ (b ++ ['\n']))) hx
              (u.length - t) (by omega)
          rw [charAt_drop, show t + (u.length - t) = u.length from by omega] at hc
          have hnl : charAt ((u ++ ['\n']) ++ (b ++ ['\n'])) u.length = some '\n' := by
            rw [charAt_append_left (u ++ ['\n']) u.length (by omega) (b ++ ['\n'])]
            unfold charAt
            rw [drop_append_le u u.length (Nat.le_refl _) ['\n'], List.drop_length]
            rfl
          rw [hnl] at hc
          exact absurd (charAt_mem _ _ _ hc.symm) (by decide)

theorem fold_sep_free : ∀ (bs : List Str) (acc : Str),
    (∀ t, sliceEq acc t SEP = false) →
    (acc = [] ∨ ∃ u, acc = u ++ ['\n']) →
    (∀ b ∈ bs, pyContainsSub b SEP = false) →
    ∀ t, sliceEq (bs.foldl (fun a b => a ++ b ++ ['\n']) acc) t SEP = false := by
  intro bs
  induction bs with
  | nil =>
    intro acc hf _ _ t
    exact hf t
  | cons b rest ih =>
    intro acc hf he hb t
    rw [List.foldl_cons]
    refine ih (acc ++ b ++ ['\n'])
      (append_step_sep_free acc b hf he (hb b (List.mem_cons_self _ _)))
      (Or.inr ⟨acc ++ b, rfl⟩)
      (fun x hx => hb x (List.mem_cons_of_mem _ hx)) t

theorem sliceEq_nil_sep : ∀ t, sliceEq [] t SEP = false := by
  intro t
  unfold sliceEq
  rw [List.drop_nil]
  decide

theorem pyCountSubF_succ (f : Nat) (s pat : Str) (q : Nat) :
    pyCountSubF (f + 1) s pat q
      = (match firstFrom (fun i => sliceEq s i pat) q (s.length + 1) with
        | none => 0
        | some i => 1 + pyCountSubF f s pat (i + pat.length)) := rfl

theorem pyCountSubF_succ_none (f : Nat) (s pat : Str) (q : Nat)
    (h : firstFrom (fun i => sliceEq s i pat) q (s.length + 1) = none) :
    pyCountSubF (f + 1) s pat q = 0 := by
  rw [pyCountSubF_succ, h]

theorem pyCountSubF_succ_some (f : Nat) (s pat : Str) (q i : Nat)
    (h : firstFrom (fun i => sliceEq s i pat) q (s.length + 1) = some i) :
    pyCountSubF (f + 1) s pat q = 1 + pyCountSubF f s pat (i + pat.length) := by
  rw [pyCountSubF_succ, h]

theorem narrowStep_idem (log : Str) : narrowStep (narrowStep log) = narrowStep log := by
  by_cases hc : pyContainsSub log SEP = true
  · have hL : SEP.length = 80 := by decide
    obtain ⟨i, hfind⟩ : ∃ i, pyFindSub log SEP = some i := by
      unfold pyContainsSub at hc
      rcases hx : pyFindSub log SEP with _ | i
      · rw [hx] at hc
        cases hc
      · exact ⟨i, rfl⟩
    obtain ⟨hi1, hi2, hi3, hi4⟩ := firstFrom_some _ _ _ _ hfind
    have hlog80 : SEP.length ≤ log.length - i := by
      have := begMatch_length_le SEP _ hi3
      rw [List.length_drop] at this
      exact this
    by_cases h1 : pyCountSub log SEP = 1
    · -- single banner: the output is the suffix of the log from the banner on
      have hout : narrowStep log = List.drop i log := by
        unfold narrowStep
        rw [if_pos hc, if_pos h1, hfind]
        rfl
      rw [hout]
      set out := List.drop i log with hdefout
      have h0 : sliceEq out 0 SEP = true := by
        rw [hdefout, sliceEq_drop, Nat.add_zero]
        exact hi3
      have hout80 : SEP.length ≤ out.length := by
        rw [hdefout, List.length_drop]
        exact hlog80
      have hfo : pyFindSub out SEP = some 0 :=
        firstFrom_of _ 0 (out.length + 1) 0 h0 (Nat.le_refl _) (by omega)
          (fun k hk1 hk2 => absurd hk2 (by omega))
      have hco : pyContainsSub out SEP = true := by
        unfold pyContainsSub
        rw [hfo]
        rfl
      have hnone : firstFrom (fun k => sliceEq log k SEP) (i + SEP.length)
          (log.length + 1) = none := by
        unfold pyCountSub at h1
        rw [pyCountSubF_succ_some log.length log SEP 0 i hfind] at h1
        rcases hy : firstFrom (fun k => sliceEq log k SEP) (i + SEP.length)
            (log.length + 1) with _ | k
        · rfl
        · rcases hll : log.length with _ | fl
          · omega
          · rw [hll] at h1
            rw [pyCountSubF_succ_some fl log SEP (i + SEP.length) k hy] at h1
            omega
      have hcnt : pyCountSub out SEP = 1 := by
        unfold pyCountSub
        rw [pyCountSubF_succ_some out.length out SEP 0 0 hfo]
        have hinner : firstFrom (fun k => sliceEq out k SEP) (0 + SEP.length)
            (out.length + 1) = none := by
          rcases hy : firstFrom (fun k => sliceEq out k SEP) (0 + SEP.length)
              (out.length + 1) with _ | k
          · rfl
          · obtain ⟨hk1, hk2, hk3, _⟩ := firstFrom_some _ _ _ _ hy
            rw [hdefout, sliceEq_drop] at hk3
            have hcontra := firstFrom_none _ _ _ hnone (i + k) (by omega) (by
              rw [hdefout, List.length_drop] at hk2
              omega)
            rw [hcontra] at hk3
            cases hk3
        rcases hol : out.length with _ | fo
        · omega
        · rw [pyCountSubF_succ_none fo out SEP (0 + SEP.length) hinner]
      unfold narrowStep
      rw [if_pos hco, if_pos hcnt, hfo]
      rfl
    · -- several banners: the output is the blocks fold, which holds no banner
      have hout : narrowStep log
          = (findBlocks log).foldl (fun a b => a ++ b ++ ['\n']) [] := by
        unfold narrowStep
        rw [if_pos hc, if_neg h1]
      have hfree : ∀ t, sliceEq (narrowStep log) t SEP = false := by
        rw [hout]
        exact fold_sep_free (findBlocks log) [] sliceEq_nil_sep (Or.inl rfl)
          (fun b hb => findBlocksF_no_sep _ _ _ b hb)
      have hnc : pyContainsSub (narrowStep log) SEP = false :=
        not_contains_of_all_false _ _ hfree
      conv_lhs => rw [narrowStep]
      rw [if_neg (by simp [hnc])]
  · have hout : narrowStep log = log := by
      unfold narrowStep
      rw [if_neg (by simp at hc ⊢; exact hc)]
    rw [hout]
    exact hout

/-- C7, amended: of the three operations of normalize_log, the address
masking and the summary narrowing are idempotent for every input string;
the escape stripping is not (see C7_normalizer_counterexample), so the
claim as stated, and with it the idempotence of the whole normalizer on
already-normalized text, fails. -/
theorem C7_normalizer_idempotence :
    (∀ s : Str, maskSub (maskSub s) = maskSub s)
    ∧ (∀ s : Str, narrowStep (narrowStep s) = narrowStep s) :=
  ⟨maskSub_idem, narrowStep_idem⟩

/-- C7 counterexample: on ESC ESC [1m [2m, the first stripping pass
removes the inner escape sequence and thereby splices a new one together
out of the leading ESC and the remaining bracket-digits-m tail, so a
second pass removes more; the whole normalizer on this already-normalized
text is likewise not a fixed point. -/
theorem C7_normalizer_counterexample :
    escStrip (escStrip (Char.ofNat 27 :: Char.ofNat 27 :: "[1m[2m".toList))
        ≠ escStrip (Char.ofNat 27 :: Char.ofNat 27 :: "[1m[2m".toList)
    ∧ normalize_log (normalize_log (Char.ofNat 27 :: Char.ofNat 27 :: "[1m[2m".toList))
        ≠ normalize_log (Char.ofNat 27 :: Char.ofNat 27 :: "[1m[2m".toList) :=
  ⟨by decide, by decide⟩
